import Mathlib

/-!
# Verification of the `url2md` webpage-to-Markdown converter

This file gives a shallow embedding of `Scripts/url2md.py` (class
`WebpageToMarkdown` and the `main` entry point) and proves or refutes the
frozen claims about it.  Python strings are modelled as `List Char`; the
regular-expression substitutions of `post_process_markdown` are translated
into executable scanning functions with Python `re` semantics (leftmost
match, greedy quantifiers with backtracking); the network, the HTML parser
and the filesystem are modelled explicitly.
-/

namespace Url2Md

open List

/-- The set of characters matched by Python's `\s` (for `str` patterns) and
stripped by `str.strip()`: exactly the characters `c` with `c.isspace()`
in CPython. -/
def isPySpace (c : Char) : Bool :=
  c = ' ' ∨ c = '\t' ∨ c = '\n' ∨ c = '\x0b' ∨ c = '\x0c' ∨ c = '\r' ∨
  c = '\x1c' ∨ c = '\x1d' ∨ c = '\x1e' ∨ c = '\x1f' ∨ c = '\x85' ∨
  c = '\xa0' ∨ c.toNat = 0x1680 ∨
  (0x2000 ≤ c.toNat ∧ c.toNat ≤ 0x200a) ∨
  c.toNat = 0x2028 ∨ c.toNat = 0x2029 ∨ c.toNat = 0x202f ∨
  c.toNat = 0x205f ∨ c.toNat = 0x3000

/-- Python `str.strip()`: drop leading and trailing whitespace. -/
def pyStrip (s : List Char) : List Char :=
  ((s.dropWhile isPySpace).reverse.dropWhile isPySpace).reverse

/-- Structural worker for `collapseNewlines` (the fuel only bounds the
recursion depth; any fuel at least the list length gives the same
result). -/
def collapseGo : Nat → List Char → List Char
  | 0, _ => []
  | _ + 1, [] => []
  | fuel + 1, c :: t =>
    if c = '\n' ∧ t.take 2 = ['\n', '\n'] then
      '\n' :: '\n' :: collapseGo fuel (t.dropWhile (· = '\n'))
    else
      c :: collapseGo fuel t

/-- `re.sub(r'\n{3,}', '\n\n', content)`: every maximal run of three or
more newlines is replaced by exactly two.  Scanning is leftmost; the greedy
`{3,}` consumes the whole run. -/
def collapseNewlines (s : List Char) : List Char :=
  collapseGo s.length s

theorem collapseGo_nil (fuel : Nat) : collapseGo fuel [] = [] := by
  cases fuel <;> rfl

theorem collapseGo_irrel (fuel₁ : Nat) :
    ∀ (fuel₂ : Nat) (s : List Char), s.length ≤ fuel₁ → s.length ≤ fuel₂ →
      collapseGo fuel₁ s = collapseGo fuel₂ s := by
  induction fuel₁ with
  | zero =>
    intro fuel₂ s h1 _
    rw [List.length_eq_zero.mp (Nat.le_zero.mp h1), collapseGo_nil,
      collapseGo_nil]
  | succ k ih =>
    intro fuel₂ s h1 h2
    match s with
    | [] => rw [collapseGo_nil, collapseGo_nil]
    | c :: t =>
      match fuel₂ with
      | 0 => exact absurd h2 (by simp)
      | m + 1 =>
        show collapseGo (k + 1) (c :: t) = collapseGo (m + 1) (c :: t)
        unfold collapseGo
        simp only [List.length_cons] at h1 h2
        have hd : (t.dropWhile (· = '\n')).length ≤ t.length :=
          (List.dropWhile_sublist _).length_le
        split
        · rw [ih m _ (by omega) (by omega)]
        · rw [ih m t (by omega) (by omega)]

/-- The recursion equation of `collapseNewlines`. -/
theorem collapseNewlines_eq (s : List Char) :
    collapseNewlines s =
      match s with
      | [] => []
      | c :: t =>
        if c = '\n' ∧ t.take 2 = ['\n', '\n'] then
          '\n' :: '\n' :: collapseNewlines (t.dropWhile (· = '\n'))
        else
          c :: collapseNewlines t := by
  match s with
  | [] => rfl
  | c :: t =>
    show collapseGo (t.length + 1) (c :: t) = _
    unfold collapseGo
    have hd : (t.dropWhile (· = '\n')).length ≤ t.length :=
      (List.dropWhile_sublist _).length_le
    dsimp only
    split
    · rw [collapseGo_irrel t.length _ _ hd (Nat.le_refl _)]
      rfl
    · rfl

/-- One attempted match of `!\[([^\]]*)\]\(([^)]+)\)` at the head of `s`:
returns the two groups and the remainder after the match. -/
def matchImage (s : List Char) : Option (List Char × List Char × List Char) :=
  match s with
  | '!' :: '[' :: t =>
    let alt := t.takeWhile (· ≠ ']')
    match t.dropWhile (· ≠ ']') with
    | ']' :: '(' :: t2 =>
      let url := t2.takeWhile (· ≠ ')')
      if url = [] then none
      else
        match t2.dropWhile (· ≠ ')') with
        | ')' :: rest => some (alt, url, rest)
        | _ => none
    | _ => none
  | _ => none

/-- A successful image match reassembles the input exactly; this is why the
image-link substitution is the identity. -/
theorem matchImage_eq {s alt url rest : List Char}
    (h : matchImage s = some (alt, url, rest)) :
    s = '!' :: '[' :: (alt ++ ']' :: '(' :: (url ++ ')' :: rest)) := by
  unfold matchImage at h
  split at h
  case _ t =>
    simp only at h
    split at h
    case _ t2 heq =>
      split at h
      case isTrue => exact absurd h (by simp)
      case isFalse hne =>
        split at h
        case _ rest0 heq2 =>
          rw [Option.some_inj, Prod.mk.injEq, Prod.mk.injEq] at h
          obtain ⟨ha, hu, hr⟩ := h
          subst ha hu hr
          have e1 := List.takeWhile_append_dropWhile (fun x => decide (x ≠ ']')) t
          have e2 := List.takeWhile_append_dropWhile (fun x => decide (x ≠ ')')) t2
          rw [heq] at e1
          rw [heq2] at e2
          conv_lhs => rw [← e1]
          conv_lhs => rw [← e2]
        case _ => exact absurd h (by simp)
    case _ => exact absurd h (by simp)
  case _ => exact absurd h (by simp)

theorem matchImage_rest_lt {s alt url rest : List Char}
    (h : matchImage s = some (alt, url, rest)) :
    rest.length < s.length := by
  have := matchImage_eq h
  subst this
  simp [List.length_append]
  omega

/-- Structural worker for `imageSubAux`. -/
def imageSubGo : Nat → List Char → List Char
  | 0, _ => []
  | _ + 1, [] => []
  | fuel + 1, c :: t =>
    match matchImage (c :: t) with
    | some (alt, url, rest) =>
      '!' :: '[' :: (alt ++ ']' :: '(' :: (url ++ ')' :: imageSubGo fuel rest))
    | none => c :: imageSubGo fuel t

/-- `re.sub(r'!\[([^\]]*)\]\(([^)]+)\)', r'![\1](\2)', content)`: the
replacement template reassembles exactly the matched text. -/
def imageSubAux (s : List Char) : List Char :=
  imageSubGo s.length s

theorem imageSubGo_nil (fuel : Nat) : imageSubGo fuel [] = [] := by
  cases fuel <;> rfl

theorem imageSubGo_irrel (fuel₁ : Nat) :
    ∀ (fuel₂ : Nat) (s : List Char), s.length ≤ fuel₁ → s.length ≤ fuel₂ →
      imageSubGo fuel₁ s = imageSubGo fuel₂ s := by
  induction fuel₁ with
  | zero =>
    intro fuel₂ s h1 _
    rw [List.length_eq_zero.mp (Nat.le_zero.mp h1), imageSubGo_nil,
      imageSubGo_nil]
  | succ k ih =>
    intro fuel₂ s h1 h2
    match s with
    | [] => rw [imageSubGo_nil, imageSubGo_nil]
    | c :: t =>
      match fuel₂ with
      | 0 => exact absurd h2 (by simp)
      | m + 1 =>
        show imageSubGo (k + 1) (c :: t) = imageSubGo (m + 1) (c :: t)
        unfold imageSubGo
        simp only [List.length_cons] at h1 h2
        cases hm : matchImage (c :: t) with
        | some v =>
          obtain ⟨alt, url, rest⟩ := v
          dsimp only
          have hr := matchImage_rest_lt hm
          simp only [List.length_cons] at hr
          rw [ih m rest (by omega) (by omega)]
        | none => rw [ih m t (by omega) (by omega)]

/-- The recursion equation of `imageSubAux`. -/
theorem imageSubAux_eq (s : List Char) :
    imageSubAux s =
      match s with
      | [] => []
      | c :: t =>
        match matchImage (c :: t) with
        | some (alt, url, rest) =>
          '!' :: '[' ::
            (alt ++ ']' :: '(' :: (url ++ ')' :: imageSubAux rest))
        | none => c :: imageSubAux t := by
  match s with
  | [] => rfl
  | c :: t =>
    show imageSubGo (t.length + 1) (c :: t) = _
    unfold imageSubGo
    dsimp only
    cases hm : matchImage (c :: t) with
    | some v =>
      obtain ⟨alt, url, rest⟩ := v
      dsimp only
      have hr := matchImage_rest_lt hm
      simp only [List.length_cons] at hr
      rw [imageSubGo_irrel t.length rest.length rest (by omega) (Nat.le_refl _)]
      rfl
    | none => rfl

/-- One attempted match of the core `\#{1,6}\s+[^\n]+` of the heading
pattern at the head of `s`, with Python's greedy/backtracking semantics:

* `\#{1,6}` can only succeed on a run of 1–6 `#` (on a longer run every
  backtracking choice leaves a `#` where `\s+` must start);
* `\s+` first takes the maximal whitespace run; if `[^\n]+` then has no
  character left, `\s+` backtracks to end just before the last non-newline
  whitespace character (keeping at least one character).

Returns the matched text (capture group 2) and the remainder. -/
def matchCore (s : List Char) : Option (List Char × List Char) :=
  let hs := s.takeWhile (· = '#')
  let u := s.dropWhile (· = '#')
  if 1 ≤ hs.length ∧ hs.length ≤ 6 then
    let wsRun := u.takeWhile isPySpace
    let afterWs := u.dropWhile isPySpace
    if wsRun.length = 0 then none
    else if wsRun.length < u.length then
      let txt := afterWs.takeWhile (· ≠ '\n')
      some (hs ++ wsRun ++ txt, afterWs.dropWhile (· ≠ '\n'))
    else
      let k := (u.reverse.takeWhile (· = '\n')).length
      if 2 ≤ u.length - k then
        some (hs ++ u.take (u.length - k), u.drop (u.length - k))
      else none
  else none

/-- Consume the optional trailing `(\n)?` of the heading pattern. -/
def dropTrailNl (r : List Char) : List Char :=
  if r.head? = some '\n' then r.tail else r

/-- One attempted match of `(\n)?(\#{1,6}\s+[^\n]+)(\n)?` at the head of
`s`.  The optional leading `(\n)?` is greedy; if it is taken and the core
fails, the empty alternative also fails because the core cannot start with
a newline.  Returns capture group 2 and the remainder after the match. -/
def matchHeading (s : List Char) : Option (List Char × List Char) :=
  match s with
  | [] => none
  | c :: t =>
    if c = '\n' then
      match matchCore t with
      | some (core, rest) => some (core, dropTrailNl rest)
      | none => none
    else
      match matchCore (c :: t) with
      | some (core, rest) => some (core, dropTrailNl rest)
      | none => none

/-- A successful core match splits the input: `s = core ++ rest` and the
core has at least two characters (a `#` and a whitespace character). -/
theorem matchCore_eq {s core rest : List Char}
    (h : matchCore s = some (core, rest)) :
    s = core ++ rest ∧ 2 ≤ core.length := by
  unfold matchCore at h
  dsimp only at h
  split at h
  case isTrue ha =>
    split at h
    case isTrue => exact absurd h (by simp)
    case isFalse hw =>
      split at h
      case isTrue hlt =>
        rw [Option.some_inj, Prod.mk.injEq] at h
        obtain ⟨hc, hr⟩ := h
        subst hc hr
        refine ⟨?_, ?_⟩
        · rw [List.append_assoc, List.append_assoc,
            List.takeWhile_append_dropWhile,
            List.takeWhile_append_dropWhile,
            List.takeWhile_append_dropWhile]
        · have h1 : 1 ≤ (s.takeWhile (· = '#')).length := ha.1
          have h2 : 1 ≤ ((s.dropWhile (· = '#')).takeWhile isPySpace).length :=
            Nat.one_le_iff_ne_zero.mpr hw
          simp only [List.length_append]
          omega
      case isFalse hge =>
        split at h
        case isTrue hk =>
          rw [Option.some_inj, Prod.mk.injEq] at h
          obtain ⟨hc, hr⟩ := h
          subst hc hr
          refine ⟨?_, ?_⟩
          · rw [List.append_assoc, List.take_append_drop,
              List.takeWhile_append_dropWhile]
          · have h1 : 1 ≤ (s.takeWhile (· = '#')).length := ha.1
            have h2 : (s.dropWhile (· = '#')).length -
                ((s.dropWhile (· = '#')).reverse.takeWhile (· = '\n')).length ≤
                (s.dropWhile (· = '#')).length := Nat.sub_le _ _
            simp only [List.length_append, List.length_take]
            omega
        case isFalse => exact absurd h (by simp)
  case isFalse => exact absurd h (by simp)

theorem dropTrailNl_length_le (r : List Char) :
    (dropTrailNl r).length ≤ r.length := by
  unfold dropTrailNl
  split
  · exact r.length_tail ▸ Nat.sub_le _ _
  · exact Nat.le_refl _

/-- A successful heading match leaves a remainder strictly shorter than the
input (the match consumes the core, which is non-empty). -/
theorem matchHeading_rest_lt {s core rest : List Char}
    (h : matchHeading s = some (core, rest)) :
    rest.length < s.length := by
  unfold matchHeading at h
  split at h
  case _ => exact absurd h (by simp)
  case _ c t =>
    split at h
    all_goals
      split at h
      case _ core0 rest0 heq =>
        rw [Option.some_inj, Prod.mk.injEq] at h
        obtain ⟨hc, hr⟩ := h
        subst hc hr
        obtain ⟨he, hlen⟩ := matchCore_eq heq
        have h1 := dropTrailNl_length_le rest0
        have h2 : t.length + 1 = (c :: t).length := by simp
        have h3 := congrArg List.length he
        simp only [List.length_append, List.length_cons] at h3 h2 ⊢
        omega
      case _ => exact absurd h (by simp)

/-- Structural worker for `headingSubAux`. -/
def headingSubGo : Nat → List Char → List Char
  | 0, _ => []
  | _ + 1, [] => []
  | fuel + 1, c :: t =>
    match matchHeading (c :: t) with
    | some (core, rest) =>
      '\n' :: '\n' :: (core ++ '\n' :: '\n' :: headingSubGo fuel rest)
    | none => c :: headingSubGo fuel t

/-- `re.sub(r'(\n)?(\#{1,6}\s+[^\n]+)(\n)?', r'\n\n\2\n\n', content)`:
leftmost scanning; each match is replaced by two newlines, the matched
heading core, and two newlines; scanning resumes after the match. -/
def headingSubAux (s : List Char) : List Char :=
  headingSubGo s.length s

theorem headingSubGo_nil (fuel : Nat) : headingSubGo fuel [] = [] := by
  cases fuel <;> rfl

theorem headingSubGo_irrel (fuel₁ : Nat) :
    ∀ (fuel₂ : Nat) (s : List Char), s.length ≤ fuel₁ → s.length ≤ fuel₂ →
      headingSubGo fuel₁ s = headingSubGo fuel₂ s := by
  induction fuel₁ with
  | zero =>
    intro fuel₂ s h1 _
    rw [List.length_eq_zero.mp (Nat.le_zero.mp h1), headingSubGo_nil,
      headingSubGo_nil]
  | succ k ih =>
    intro fuel₂ s h1 h2
    match s with
    | [] => rw [headingSubGo_nil, headingSubGo_nil]
    | c :: t =>
      match fuel₂ with
      | 0 => exact absurd h2 (by simp)
      | m + 1 =>
        show headingSubGo (k + 1) (c :: t) = headingSubGo (m + 1) (c :: t)
        unfold headingSubGo
        simp only [List.length_cons] at h1 h2
        cases hm : matchHeading (c :: t) with
        | some v =>
          obtain ⟨core, rest⟩ := v
          dsimp only
          have hr := matchHeading_rest_lt hm
          simp only [List.length_cons] at hr
          rw [ih m rest (by omega) (by omega)]
        | none => rw [ih m t (by omega) (by omega)]

/-- The recursion equation of `headingSubAux`. -/
theorem headingSubAux_eq (s : List Char) :
    headingSubAux s =
      match s with
      | [] => []
      | c :: t =>
        match matchHeading (c :: t) with
        | some (core, rest) =>
          '\n' :: '\n' :: (core ++ '\n' :: '\n' :: headingSubAux rest)
        | none => c :: headingSubAux t := by
  match s with
  | [] => rfl
  | c :: t =>
    show headingSubGo (t.length + 1) (c :: t) = _
    unfold headingSubGo
    dsimp only
    cases hm : matchHeading (c :: t) with
    | some v =>
      obtain ⟨core, rest⟩ := v
      dsimp only
      have hr := matchHeading_rest_lt hm
      simp only [List.length_cons] at hr
      rw [headingSubGo_irrel t.length rest.length rest (by omega)
        (Nat.le_refl _)]
      rfl
    | none => rfl

/-- `WebpageToMarkdown.post_process_markdown` (url2md.py, lines 185–199):
collapse newline runs, rewrite image links (an identity), space headings,
then strip the ends. -/
def post_process_markdown (s : List Char) : List Char :=
  pyStrip (headingSubAux (imageSubAux (collapseNewlines s)))

/-- `post_process_markdown` on `String`. -/
def postProcess (s : String) : String :=
  ⟨post_process_markdown s.data⟩

/-- Does the heading-pattern core `\#{1,6}\s+[^\n]+` match at any
position of `s`?  (Scans every suffix.) -/
def hasCore : List Char → Bool
  | [] => false
  | c :: t => (matchCore (c :: t)).isSome || hasCore t

/-- Does `s` contain three consecutive newlines?  (The guard of the
newline-collapsing substitution.) -/
def has3 : List Char → Bool
  | [] => false
  | c :: t => (decide (c = '\n' ∧ t.take 2 = ['\n', '\n'])) || has3 t

/-! ## MD5 (`hashlib.md5`), hex digests and UTF-8 encoding

`download_image` names image files after
`hashlib.md5(img_url.encode()).hexdigest()[:8]`.  We embed the full MD5
algorithm over byte lists (`List Nat`, bytes < 256), with 32-bit words as
`Nat` reduced modulo `2^32`. -/

/-- The 64 MD5 round constants `K[i] = floor(2^32 * |sin(i+1)|)`. -/
def md5K : List Nat :=
  [0xd76aa478, 0xe8c7b756, 0x242070db, 0xc1bdceee,
   0xf57c0faf, 0x4787c62a, 0xa8304613, 0xfd469501,
   0x698098d8, 0x8b44f7af, 0xffff5bb1, 0x895cd7be,
   0x6b901122, 0xfd987193, 0xa679438e, 0x49b40821,
   0xf61e2562, 0xc040b340, 0x265e5a51, 0xe9b6c7aa,
   0xd62f105d, 0x02441453, 0xd8a1e681, 0xe7d3fbc8,
   0x21e1cde6, 0xc33707d6, 0xf4d50d87, 0x455a14ed,
   0xa9e3e905, 0xfcefa3f8, 0x676f02d9, 0x8d2a4c8a,
   0xfffa3942, 0x8771f681, 0x6d9d6122, 0xfde5380c,
   0xa4beea44, 0x4bdecfa9, 0xf6bb4b60, 0xbebfbc70,
   0x289b7ec6, 0xeaa127fa, 0xd4ef3085, 0x04881d05,
   0xd9d4d039, 0xe6db99e5, 0x1fa27cf8, 0xc4ac5665,
   0xf4292244, 0x432aff97, 0xab9423a7, 0xfc93a039,
   0x655b59c3, 0x8f0ccc92, 0xffeff47d, 0x85845dd1,
   0x6fa87e4f, 0xfe2ce6e0, 0xa3014314, 0x4e0811a1,
   0xf7537e82, 0xbd3af235, 0x2ad7d2bb, 0xeb86d391]

/-- The 64 MD5 per-round left-rotation amounts. -/
def md5S : List Nat :=
  [7, 12, 17, 22, 7, 12, 17, 22, 7, 12, 17, 22, 7, 12, 17, 22,
   5, 9, 14, 20, 5, 9, 14, 20, 5, 9, 14, 20, 5, 9, 14, 20,
   4, 11, 16, 23, 4, 11, 16, 23, 4, 11, 16, 23, 4, 11, 16, 23,
   6, 10, 15, 21, 6, 10, 15, 21, 6, 10, 15, 21, 6, 10, 15, 21]

/-- 32-bit left rotation on `Nat` (inputs below `2^32`). -/
def rotl32 (x n : Nat) : Nat :=
  ((x <<< n) % 4294967296) + (x >>> (32 - n))

/-- 32-bit bitwise complement (inputs below `2^32`). -/
def not32 (x : Nat) : Nat := 4294967295 - x

/-- One MD5 round step `i` on state `(a, b, c, d)` with message words `m`. -/
def md5Step (m : List Nat) (st : Nat × Nat × Nat × Nat) (i : Nat) :
    Nat × Nat × Nat × Nat :=
  let (a, b, c, d) := st
  let fg : Nat × Nat :=
    if i < 16 then ((b &&& c) ||| (not32 b &&& d), i)
    else if i < 32 then ((d &&& b) ||| (not32 d &&& c), (5 * i + 1) % 16)
    else if i < 48 then (b ^^^ c ^^^ d, (3 * i + 5) % 16)
    else (c ^^^ (b ||| not32 d), (7 * i) % 16)
  let f := fg.1
  let g := fg.2
  let sum := (a + f + md5K.getD i 0 + m.getD g 0) % 4294967296
  (d, (b + rotl32 sum (md5S.getD i 0)) % 4294967296, b, c)

/-- Split a 64-byte chunk into 16 little-endian 32-bit words. -/
def md5Words (chunk : List Nat) : List Nat :=
  (List.range 16).map fun i =>
    chunk.getD (4 * i) 0 + 256 * chunk.getD (4 * i + 1) 0 +
    65536 * chunk.getD (4 * i + 2) 0 + 16777216 * chunk.getD (4 * i + 3) 0

/-- Process one 64-byte chunk: run the 64 rounds and add the result to the
incoming state, modulo `2^32` per word. -/
def md5Chunk (st : Nat × Nat × Nat × Nat) (chunk : List Nat) :
    Nat × Nat × Nat × Nat :=
  let m := md5Words chunk
  let r := (List.range 64).foldl (md5Step m) st
  ((st.1 + r.1) % 4294967296, (st.2.1 + r.2.1) % 4294967296,
   (st.2.2.1 + r.2.2.1) % 4294967296, (st.2.2.2 + r.2.2.2) % 4294967296)

/-- Structural worker for `chunks64`. -/
def chunks64Go : Nat → List Nat → List (List Nat)
  | 0, _ => []
  | _ + 1, [] => []
  | fuel + 1, x :: t => (x :: t).take 64 :: chunks64Go fuel ((x :: t).drop 64)

/-- Split a list into chunks of 64 elements. -/
def chunks64 (l : List Nat) : List (List Nat) :=
  chunks64Go l.length l

/-- A `Nat` as `k` little-endian bytes. -/
def leBytes (k n : Nat) : List Nat :=
  (List.range k).map fun i => (n >>> (8 * i)) % 256

/-- MD5 padding: append `0x80`, zero-fill to 56 mod 64, then the original
bit length as 8 little-endian bytes. -/
def md5Pad (msg : List Nat) : List Nat :=
  msg ++ [0x80] ++
  List.replicate ((56 + 64 - (msg.length + 1) % 64) % 64) 0 ++
  leBytes 8 ((msg.length * 8) % 18446744073709551616)

/-- The 16-byte MD5 digest of a byte list. -/
def md5Bytes (msg : List Nat) : List Nat :=
  let st := (chunks64 (md5Pad msg)).foldl md5Chunk
    (0x67452301, 0xefcdab89, 0x98badcfe, 0x10325476)
  leBytes 4 st.1 ++ leBytes 4 st.2.1 ++ leBytes 4 st.2.2.1 ++ leBytes 4 st.2.2.2

/-- Lowercase hex digit for `n < 16`. -/
def hexDigit (n : Nat) : Char :=
  if n < 10 then Char.ofNat ('0'.toNat + n) else Char.ofNat ('a'.toNat + (n - 10))

/-- Two lowercase hex digits of a byte. -/
def byteHex (b : Nat) : List Char := [hexDigit (b / 16), hexDigit (b % 16)]

/-- `hashlib.md5(bytes).hexdigest()` as a list of characters. -/
def md5Hex (msg : List Nat) : List Char :=
  (md5Bytes msg).foldr (fun b acc => byteHex b ++ acc) []

/-- UTF-8 encoding of one character (Python `str.encode()`). -/
def utf8Char (c : Char) : List Nat :=
  let n := c.toNat
  if n < 0x80 then [n]
  else if n < 0x800 then [0xc0 + n / 64, 0x80 + n % 64]
  else if n < 0x10000 then
    [0xe0 + n / 4096, 0x80 + n / 64 % 64, 0x80 + n % 64]
  else
    [0xf0 + n / 262144, 0x80 + n / 4096 % 64, 0x80 + n / 64 % 64, 0x80 + n % 64]

/-- UTF-8 encoding of a string (Python `str.encode()`). -/
def utf8Encode (s : String) : List Nat :=
  s.data.foldr (fun c acc => utf8Char c ++ acc) []

/-! ## URL handling (`urllib.parse.urljoin`, `urlparse(...).path`,
`os.path.splitext`, `os.path.basename`)

These model the CPython implementations for the inputs the script can
produce: an absolute `http(s)` base URL (guaranteed by `main`, which
prefixes `https://` when missing) and an arbitrary reference.  The legacy
`scheme-relative-without-netloc` corner (`http:y`) follows CPython's path
logic; username/port subtleties of netloc parsing are not modelled. -/

/-- Characters allowed in a URL scheme after the first letter. -/
def isSchemeChar (c : Char) : Bool :=
  c.isAlpha ∨ c.isDigit ∨ c = '+' ∨ c = '-' ∨ c = '.'

/-- Split a leading `scheme:` off a URL, if present (first char a letter,
rest scheme characters, then a colon).  Returns the scheme (original case)
and the remainder after the colon. -/
def schemeSplit (u : List Char) : Option (List Char × List Char) :=
  let sch := u.takeWhile isSchemeChar
  match sch with
  | [] => none
  | c :: _ =>
    if c.isAlpha ∧ (u.drop sch.length).head? = some ':' then
      some (sch, u.drop (sch.length + 1))
    else none

/-- Split a string at the first `?` or `#`: the path part and the
query/fragment suffix (kept verbatim, starting with `?` or `#`). -/
def querySplit (u : List Char) : List Char × List Char :=
  (u.takeWhile (fun c => ¬ (c = '?' ∨ c = '#')),
   u.dropWhile (fun c => ¬ (c = '?' ∨ c = '#')))

/-- Lowercase a scheme. -/
def lowerChars (l : List Char) : List Char := l.map Char.toLower

/-- Split a character list at every occurrence of `sep`, keeping empty
pieces (the semantics of `str.split(sep)`); the empty input gives one
empty piece. -/
def splitOnChar (sep : Char) : List Char → List (List Char)
  | [] => [[]]
  | c :: t =>
    if c = sep then [] :: splitOnChar sep t
    else
      match splitOnChar sep t with
      | [] => [[c]]
      | w :: ws => (c :: w) :: ws

/-- Join pieces with `sep` between them (`sep.join(pieces)`). -/
def joinSep (sep : Char) : List (List Char) → List Char
  | [] => []
  | [w] => w
  | w :: ws => w ++ sep :: joinSep sep ws

/-- CPython's relative-path resolution loop over `/`-separated segments:
`..` pops (ignored on an empty stack), `.` is skipped, and a trailing `.`
or `..` leaves a trailing empty segment. -/
def resolveSegs (segs : List (List Char)) : List (List Char) :=
  let stack := segs.foldl
    (fun st seg =>
      if seg = "..".data then st.dropLast
      else if seg = ".".data then st
      else st ++ [seg]) []
  if segs.getLast? = some ".".data ∨ segs.getLast? = some "..".data then
    stack ++ [[]]
  else stack

/-- CPython's `urljoin` discards empty segments strictly between the first
and the last segment when merging a relative reference. -/
def filterMiddle (l : List (List Char)) : List (List Char) :=
  match l with
  | [] => []
  | [a] => [a]
  | a :: rest =>
    a :: (rest.dropLast.filter (fun s => ¬ s.isEmpty) ++ [rest.getLastD []])

/-- `urlsplit`-style decomposition of a scheme-free URL part into
netloc (when it starts with `//`), path, query and fragment.  The fragment
is everything after the first `#`; the query sits between the first `?`
and that `#`. -/
def urlsplitRest (r : List Char) : List Char × List Char × List Char × List Char :=
  let hasN := r.take 2 = ['/', '/']
  let netloc :=
    if hasN then (r.drop 2).takeWhile (fun c => ¬ (c = '/' ∨ c = '?' ∨ c = '#'))
    else []
  let after := if hasN then (r.drop 2).drop netloc.length else r
  let preF := after.takeWhile (· ≠ '#')
  let frag := (after.dropWhile (· ≠ '#')).drop 1
  let path := preF.takeWhile (· ≠ '?')
  let query := (preF.dropWhile (· ≠ '?')).drop 1
  (netloc, path, query, frag)

/-- `urllib.parse.urlunsplit` for a non-empty scheme: empty query and
fragment are omitted; a netloc re-introduces `//` and a leading `/` on a
relative path. -/
def pyUrlunsplit (scheme : String) (netloc path query frag : List Char) :
    String :=
  let u :=
    if netloc ≠ [] ∨ path.take 2 = ['/', '/'] then
      let u2 := if path ≠ [] ∧ path.head? ≠ some '/' then '/' :: path else path
      '/' :: '/' :: (netloc ++ u2)
    else path
  let u := scheme.data ++ ':' :: u
  let u := if query ≠ [] then u ++ '?' :: query else u
  let u := if frag ≠ [] then u ++ '#' :: frag else u
  String.mk u

/-- `urllib.parse.urljoin(base, url)`, modelling CPython's algorithm for an
absolute `http(s)`-style base URL. -/
def pyUrljoin (base url : String) : String :=
  if url = "" then base
  else
    match schemeSplit base.data with
    | none => url
    | some (bsch, brest) =>
      let bscheme := String.mk (lowerChars bsch)
      let bparts := urlsplitRest brest
      let bnetloc := bparts.1
      let bpath := bparts.2.1
      let bquery := bparts.2.2.1
      -- the reference: strip an identical scheme, return a foreign one verbatim
      let relParts : Option (List Char) :=
        match schemeSplit url.data with
        | some (us, ur) =>
          if String.mk (lowerChars us) = bscheme then some ur else none
        | none => some url.data
      match relParts with
      | none => url
      | some r =>
        let rparts := urlsplitRest r
        let rnetloc := rparts.1
        let path := rparts.2.1
        let query := rparts.2.2.1
        let frag := rparts.2.2.2
        if rnetloc ≠ [] then pyUrlunsplit bscheme rnetloc path query frag
        else if path = [] then
          pyUrlunsplit bscheme bnetloc bpath
            (if query = [] then bquery else query) frag
        else
          let segs :=
            if path.head? = some '/' then splitOnChar '/' path
            else
              let baseParts := splitOnChar '/' bpath
              let baseParts :=
                if baseParts.getLast? ≠ some [] then baseParts.dropLast
                else baseParts
              filterMiddle (baseParts ++ splitOnChar '/' path)
          let joined := joinSep '/' (resolveSegs segs)
          let path1 := if joined = [] then ['/'] else joined
          pyUrlunsplit bscheme bnetloc path1 query frag

/-- The schemes for which `urlparse` separates `;parameters` from the last
path segment (CPython's `uses_params`). -/
def usesParams : List String :=
  ["", "ftp", "hdl", "prospero", "http", "imap", "https", "shttp", "rtsp",
   "rtspu", "sip", "sips", "mms", "sftp", "tel"]

/-- `urllib.parse.urlparse(u).path`. -/
def urlparsePath (u : String) : String :=
  let sr : String × List Char :=
    match schemeSplit u.data with
    | some (s, r) => (String.mk (lowerChars s), r)
    | none => ("", u.data)
  let rest := sr.2
  let afterNetloc :=
    if rest.take 2 = ['/', '/'] then
      (rest.drop 2).dropWhile (fun c => ¬ (c = '/' ∨ c = '?' ∨ c = '#'))
    else rest
  let path := (querySplit afterNetloc).1
  let lastSeg := (path.reverse.takeWhile (· ≠ '/')).reverse
  if sr.1 ∈ usesParams ∧ lastSeg.any (· = ';') then
    String.mk (path.take (path.length - lastSeg.length) ++
      lastSeg.takeWhile (· ≠ ';'))
  else String.mk path

/-- The extension part of `os.path.splitext` (POSIX rules): the suffix from
the last dot of the final path component, empty when that component has no
dot or only leading dots. -/
def splitextExt (p : String) : String :=
  let bn := (p.data.reverse.takeWhile (· ≠ '/')).reverse
  let extRev := bn.reverse.takeWhile (· ≠ '.')
  if extRev.length = bn.length then ""
  else
    let pre := bn.take (bn.length - extRev.length - 1)
    if pre.all (· = '.') then "" else String.mk ('.' :: extRev.reverse)

/-- `os.path.basename` (POSIX rules): the part after the last `/`. -/
def pyBasename (p : String) : String :=
  String.mk ((p.data.reverse.takeWhile (· ≠ '/')).reverse)

/-- The generated local image filename (url2md.py lines 55–59):
`img_` + first 8 hex digits of the MD5 of the absolute URL + the URL
path's extension, defaulting to `.jpg`. -/
def imgFileName (u : String) : String :=
  let ext := splitextExt (urlparsePath u)
  let ext := if ext = "" then ".jpg" else ext
  "img_" ++ String.mk ((md5Hex (utf8Encode u)).take 8) ++ ext

/-! ## The HTML document model and the conversion pipeline

A parsed page (BeautifulSoup tree) is a forest of nodes: elements with a
tag, attributes and children; text nodes; comment nodes.  In BeautifulSoup
a `Comment` is a `NavigableString` whose content *excludes* the `<!--`/
`-->` markers.  The network, `hash()` and `datetime.now()` are supplied by
an explicit environment; `requests.get` composed with HTML parsing is
modelled as a function from a URL to either an error code (non-2xx status,
timeout, connection failure — everything `raise_for_status`/`get` can
raise) or a parsed document. -/

inductive HNode where
  | elem (tag : String) (attrs : List (String × String)) (children : List HNode)
  | text (s : String)
  | comment (s : String)
deriving Repr

/-- Attribute update, dict-style: replace in place or append. -/
def setAttr (attrs : List (String × String)) (k v : String) :
    List (String × String) :=
  if (attrs.lookup k).isSome then
    attrs.map (fun p => if p.1 = k then (k, v) else p)
  else attrs ++ [(k, v)]

/-- The tags removed by `clean_html`:
`for tag in soup(['script', 'style', 'meta', 'link']): tag.decompose()`. -/
def badTags : List String := ["script", "style", "meta", "link"]

mutual
/-- First pass of `clean_html`: drop every `script`/`style`/`meta`/`link`
element together with its subtree. -/
def stripBadTags : HNode → Option HNode
  | .elem tag attrs ch =>
    if tag ∈ badTags then none else some (.elem tag attrs (stripBadTagsList ch))
  | .text s => some (.text s)
  | .comment s => some (.comment s)

def stripBadTagsList : List HNode → List HNode
  | [] => []
  | n :: r =>
    match stripBadTags n with
    | some m => m :: stripBadTagsList r
    | none => stripBadTagsList r
end

/-- Does `pat` occur at the start of the list? -/
def startsWithSeq : List Char → List Char → Bool
  | [], _ => true
  | _ :: _, [] => false
  | p :: ps, c :: cs => p = c && startsWithSeq ps cs

/-- Python's `pat in s`: does `pat` occur as a contiguous subsequence? -/
def containsSeq (pat : List Char) : List Char → Bool
  | [] => pat.isEmpty
  | c :: t => startsWithSeq pat (c :: t) || containsSeq pat t

/-- The string-node filter of `clean_html`'s second pass:
`lambda text: isinstance(text, str) and '<!--' in text` applied to every
`NavigableString` (comments included — a `Comment` is a `NavigableString`
and hence a `str`).  A parsed comment's content does not include the
`<!--` marker. -/
def stringFilterMatches (s : String) : Bool :=
  containsSeq "<!--".data s.data

mutual
/-- Second pass of `clean_html`: `extract()` every string node matched by
the filter. -/
def stripBadStrings : HNode → Option HNode
  | .elem tag attrs ch => some (.elem tag attrs (stripBadStringsList ch))
  | .text s => if stringFilterMatches s then none else some (.text s)
  | .comment s => if stringFilterMatches s then none else some (.comment s)

def stripBadStringsList : List HNode → List HNode
  | [] => []
  | n :: r =>
    match stripBadStrings n with
    | some m => m :: stripBadStringsList r
    | none => stripBadStringsList r
end

/-- `WebpageToMarkdown.clean_html` (url2md.py lines 94–104). -/
def clean_html (doc : List HNode) : List HNode :=
  stripBadStringsList (stripBadTagsList doc)

/-- `WebpageToMarkdown.download_image` (url2md.py lines 44–71) for the
`img_name=None` call made by `process_images`: resolve the source against
the page URL; on success, write the bytes under the images directory using
the hash-derived name and return the relative reference `images/<name>`;
on any failure, return the resolved URL and write nothing. -/
def download_image (fetchBytes : String → Option (List Nat))
    (pageUrl imagesDir : String) (src : String) :
    String × Option (String × List Nat) :=
  let u := pyUrljoin pageUrl src
  match fetchBytes u with
  | some bytes =>
    ("images/" ++ imgFileName u, some (imagesDir ++ "/" ++ imgFileName u, bytes))
  | none => (u, none)

/-- The body of `process_images`' loop for one `img` element's attributes:
skip a missing or empty (falsy) `src`; otherwise download, rewrite `src`
to the returned reference and set a missing/empty `alt` to the basename of
that reference.  Returns the updated attributes and the file writes. -/
def imgStep (dl : String → String × Option (String × List Nat))
    (attrs : List (String × String)) :
    List (String × String) × List (String × List Nat) :=
  match attrs.lookup "src" with
  | none => (attrs, [])
  | some src =>
    if src = "" then (attrs, [])
    else
      let r := dl src
      let attrs1 := setAttr attrs "src" r.1
      let attrs2 :=
        if ((attrs1.lookup "alt").getD "") = "" then
          setAttr attrs1 "alt" (pyBasename r.1)
        else attrs1
      (attrs2, match r.2 with | some w => [w] | none => [])

mutual
/-- `WebpageToMarkdown.process_images` on one node: every `img` with a
non-empty (truthy) `src` has the image downloaded, its `src` rewritten to
the result, and a missing/empty `alt` set to the basename of the new
source; file writes are collected in document order. -/
def processNode (dl : String → String × Option (String × List Nat)) :
    HNode → HNode × List (String × List Nat)
  | .elem tag attrs ch =>
    let own : List (String × String) × List (String × List Nat) :=
      if tag = "img" then imgStep dl attrs else (attrs, [])
    let rest := processList dl ch
    (.elem tag own.1 rest.1, own.2 ++ rest.2)
  | .text s => (.text s, [])
  | .comment s => (.comment s, [])

def processList (dl : String → String × Option (String × List Nat)) :
    List HNode → List HNode × List (String × List Nat)
  | [] => ([], [])
  | n :: r =>
    let a := processNode dl n
    let b := processList dl r
    (a.1 :: b.1, a.2 ++ b.2)
end

/-- `WebpageToMarkdown.process_images` over the whole document. -/
def process_images (fetchBytes : String → Option (List Nat))
    (pageUrl imagesDir : String) (doc : List HNode) :
    List HNode × List (String × List Nat) :=
  processList (download_image fetchBytes pageUrl imagesDir) doc

mutual
/-- Pre-order list of the attribute lists of every `img` element of a
tree (the order in which `find_all('img')` yields them). -/
def imgAttrsNode : HNode → List (List (String × String))
  | .elem tag attrs ch =>
    (if tag = "img" then [attrs] else []) ++ imgAttrsList ch
  | .text _ => []
  | .comment _ => []

def imgAttrsList : List HNode → List (List (String × String))
  | [] => []
  | n :: r => imgAttrsNode n ++ imgAttrsList r
end

/-- The non-empty `src` values among a pre-order list of `img` attribute
lists: exactly the images `process_images` downloads. -/
def truthySrcs (l : List (List (String × String))) : List String :=
  l.filterMap fun attrs =>
    match attrs.lookup "src" with
    | none => none
    | some s => if s = "" then none else some s

mutual
/-- First node (document pre-order) satisfying a predicate. -/
def findFirstNode (p : HNode → Bool) : HNode → Option HNode
  | .elem tag attrs ch =>
    if p (.elem tag attrs ch) then some (.elem tag attrs ch)
    else findFirstList p ch
  | .text s => if p (.text s) then some (.text s) else none
  | .comment s => if p (.comment s) then some (.comment s) else none

def findFirstList (p : HNode → Bool) : List HNode → Option HNode
  | [] => none
  | n :: r =>
    match findFirstNode p n with
    | some m => some m
    | none => findFirstList p r
end

def tagIs (t : String) : HNode → Bool
  | .elem tag _ _ => tag = t
  | _ => false

def attrIs (k v : String) : HNode → Bool
  | .elem _ attrs _ => attrs.lookup k = some v
  | _ => false

/-- Structural worker for `wsWords`. -/
def wsWordsGo : Nat → List Char → List String
  | 0, _ => []
  | _ + 1, [] => []
  | fuel + 1, c :: t =>
    if isPySpace c then wsWordsGo fuel t
    else
      let w := (c :: t).takeWhile (fun x => ¬ isPySpace x)
      String.mk w :: wsWordsGo fuel ((c :: t).drop w.length)

/-- Split on runs of whitespace (for the HTML `class` attribute). -/
def wsWords (l : List Char) : List String :=
  wsWordsGo l.length l

def hasClass (cls : String) : HNode → Bool
  | .elem _ attrs _ =>
    match attrs.lookup "class" with
    | some v => cls ∈ wsWords v.data
    | none => false
  | _ => false

def idIs (v : String) : HNode → Bool
  | .elem _ attrs _ => attrs.lookup "id" = some v
  | _ => false

/-- The main-content selection (url2md.py lines 134–138): the first match
of the ordered selector list `main`, `article`, `[role="main"]`,
`.content`, `#content`, `.post`, `.entry-content`. -/
def selectMain (doc : List HNode) : Option HNode :=
  (findFirstList (tagIs "main") doc).orElse fun _ =>
  (findFirstList (tagIs "article") doc).orElse fun _ =>
  (findFirstList (attrIs "role" "main") doc).orElse fun _ =>
  (findFirstList (hasClass "content") doc).orElse fun _ =>
  (findFirstList (idIs "content") doc).orElse fun _ =>
  (findFirstList (hasClass "post") doc).orElse fun _ =>
  findFirstList (hasClass "entry-content") doc

mutual
/-- The text of a node (`Tag.text`/`get_text()`): concatenated text-node
contents of the subtree (comments excluded). -/
def textOfNode : HNode → String
  | .elem _ _ ch => textOfList ch
  | .text s => s
  | .comment _ => ""

def textOfList : List HNode → String
  | [] => ""
  | n :: r => textOfNode n ++ textOfList r
end

mutual
/-- A model of `html2text.HTML2Text.handle` restricted to the constructs
the claims depend on: text passes through, comments vanish, and an `img`
becomes `![alt](src)` unless `ignore_images` is set, in which case it is
omitted.  Other elements contribute their children's rendering. -/
def renderNode (ignoreImages : Bool) : HNode → String
  | .elem tag attrs ch =>
    if tag = "img" then
      if ignoreImages then ""
      else
        "![" ++ ((attrs.lookup "alt").getD "") ++ "](" ++
          ((attrs.lookup "src").getD "") ++ ")"
    else renderList ignoreImages ch
  | .text s => s
  | .comment _ => ""

def renderList (ignoreImages : Bool) : List HNode → String
  | [] => ""
  | n :: r => renderNode ignoreImages n ++ renderList ignoreImages r
end

/-- The effect environment of one conversion: `requests.Session.get`
composed with `BeautifulSoup` parsing for the page itself (an error code
models any fetch failure — non-2xx status via `raise_for_status`, timeout,
connection error); raw bytes for image fetches (`None` models any
failure); the interpreter's `hash` builtin (salted, hence environment
data); and `datetime.now()` formatted as `%Y-%m-%d %H:%M:%S`. -/
structure NetEnv where
  fetchPage : String → Except Nat (List HNode)
  fetchBytes : String → Option (List Nat)
  pyHash : String → Int
  now : String

/-- The constructor arguments of `WebpageToMarkdown`. -/
structure ConvInput where
  url : String
  output_dir : String := "output"
  filename : Option String := none

/-- One filesystem effect, in chronological order: a directory creation
(`mkdir(exist_ok=True)`), a binary file write, or a text file write with
its encoding. -/
inductive FsEntry where
  | dir (path : String)
  | bin (path : String) (content : List Nat)
  | file (path : String) (content : String) (enc : String)
deriving Repr, DecidableEq

instance {ε α : Type} [DecidableEq ε] [DecidableEq α] :
    DecidableEq (Except ε α) := fun a b =>
  match a, b with
  | .ok x, .ok y =>
    if h : x = y then .isTrue (by rw [h])
    else .isFalse (by intro hc; injection hc; exact h (by assumption))
  | .error x, .error y =>
    if h : x = y then .isTrue (by rw [h])
    else .isFalse (by intro hc; injection hc; exact h (by assumption))
  | .ok _, .error _ => .isFalse (fun hc => Except.noConfusion hc)
  | .error _, .ok _ => .isFalse (fun hc => Except.noConfusion hc)

/-- The images directory `self.images_dir = self.output_dir / "images"`. -/
def imagesDirOf (cv : ConvInput) : String := cv.output_dir ++ "/images"

/-- The directory creations performed by `WebpageToMarkdown.__init__`
(url2md.py lines 31–33), before any network request. -/
def initEntries (cv : ConvInput) : List FsEntry :=
  [.dir cv.output_dir, .dir (imagesDirOf cv)]

/-- The forbidden filename characters of `re.sub(r'[<>:"/\\|?*]', '_', ·)`. -/
def forbiddenChars : List Char := ['<', '>', ':', '"', '/', '\\', '|', '?', '*']

/-- `re.sub(r'[<>:"/\\|?*]', '_', title_text)[:50]`. -/
def sanitizeTitle (t : String) : String :=
  ⟨(t.data.map fun c => if c ∈ forbiddenChars then '_' else c).take 50⟩

/-- `title = soup.find('title')`, `title.text.strip() if title else
"webpage"` (url2md.py lines 122–123). -/
def pageTitle (doc : List HNode) : String :=
  match findFirstList (tagIs "title") doc with
  | some n => String.mk (pyStrip (textOfNode n).data)
  | none => "webpage"

/-- The output basename chosen by `convert_to_markdown`
(url2md.py lines 163–170): the explicit filename verbatim when present;
otherwise the sanitized, truncated title; falling back to
`webpage_<hash(url) % 10000>` when that is blank. -/
def outputBasename (pyHash : String → Int) (cv : ConvInput)
    (title_text : String) : String :=
  match cv.filename with
  | some f => f
  | none =>
    let safe := sanitizeTitle title_text
    if pyStrip safe.data = [] then
      "webpage_" ++ toString (pyHash cv.url % 10000)
    else safe

/-- `WebpageToMarkdown.convert_to_markdown` (url2md.py lines 106–183).
`ignoreImages` is the state of `self.h.ignore_images` (set by `main` under
`--no-images`); it only configures the html2text conversion.  Returns the
propagated error or the output path, together with the chronological
filesystem log (the `__init__` directory creations included). -/
def convert_to_markdown (env : NetEnv) (cv : ConvInput)
    (ignoreImages : Bool) : Except Nat String × List FsEntry :=
  match env.fetchPage cv.url with
  | .error e => (.error e, initEntries cv)
  | .ok doc =>
    let title_text := pageTitle doc
    let cleaned := clean_html doc
    let pi := process_images env.fetchBytes cv.url (imagesDirOf cv) cleaned
    let processed := pi.1
    let mainContent : List HNode :=
      match selectMain processed with
      | some n => [n]
      | none =>
        match findFirstList (tagIs "body") processed with
        | some b => [b]
        | none => processed
    let markdown := renderList ignoreImages mainContent
    let mdPost := String.mk (post_process_markdown markdown.data)
    let metadata := "---\ntitle: " ++ title_text ++ "\nsource: " ++ cv.url ++
      "\ndate: " ++ env.now ++ "\n---\n\n"
    let final := metadata ++ mdPost
    let safe := outputBasename env.pyHash cv title_text
    let outPath := cv.output_dir ++ "/" ++ safe ++ ".md"
    (.ok outPath,
     initEntries cv ++ pi.2.map (fun w => .bin w.1 w.2) ++
       [.file outPath final "utf-8"])

/-- The command-line arguments of `main` (url2md.py lines 202–207). -/
structure Args where
  url : String
  output : String := "output"
  filename : Option String := none
  no_images : Bool := false

/-- `main` (url2md.py lines 202–228): prefix `https://` onto schemeless
URLs, construct the converter, set `h.ignore_images` when `--no-images`
was given, and convert. -/
def mainRun (env : NetEnv) (args : Args) : Except Nat String × List FsEntry :=
  let url :=
    if startsWithSeq "http://".data args.url.data ∨
        startsWithSeq "https://".data args.url.data then args.url
    else "https://" ++ args.url
  convert_to_markdown env ⟨url, args.output, args.filename⟩ args.no_images

/-! ## Helper lemmas -/

theorem lookup_map_setKey (k v : String) (l : List (String × String)) :
    (l.lookup k).isSome →
    (l.map fun p => if p.1 = k then (k, v) else p).lookup k = some v := by
  induction l with
  | nil => simp
  | cons p t ih =>
    obtain ⟨pk, pv⟩ := p
    intro h
    by_cases hk : pk = k
    · subst hk
      simp [List.lookup_cons]
    · have hb : (k == pk) = false := by
        simp only [beq_eq_false_iff_ne]
        exact fun he => hk he.symm
      simp only [List.map_cons]
      rw [if_neg (by simpa using hk)]
      rw [List.lookup_cons, hb]
      apply ih
      rw [List.lookup_cons, hb] at h
      exact h

theorem lookup_append_missing (k v : String) (l : List (String × String)) :
    l.lookup k = none → (l ++ [(k, v)]).lookup k = some v := by
  intro h
  rw [List.lookup_append, h]
  simp

theorem lookup_setAttr_self (attrs : List (String × String)) (k v : String) :
    (setAttr attrs k v).lookup k = some v := by
  unfold setAttr
  split
  case isTrue h => exact lookup_map_setKey k v attrs h
  case isFalse h =>
    apply lookup_append_missing
    cases hc : attrs.lookup k with
    | none => rfl
    | some b => exact absurd (by simp [hc]) h

theorem lookup_map_setKey_ne (k v q : String) (h : q ≠ k)
    (l : List (String × String)) :
    (l.map fun p => if p.1 = k then (k, v) else p).lookup q = l.lookup q := by
  induction l with
  | nil => simp
  | cons p t ih =>
    obtain ⟨pk, pv⟩ := p
    by_cases hk : pk = k
    · subst hk
      have hb : (q == pk) = false := by simpa using h
      simp [List.lookup_cons, hb, ih]
    · have hk2 : ¬ ((pk, pv).1 = k) := hk
      simp only [List.map_cons, if_neg hk2]
      rw [List.lookup_cons, List.lookup_cons]
      cases hq : (q == pk) with
      | true => rfl
      | false => exact ih

theorem lookup_setAttr_ne (attrs : List (String × String)) (k v q : String)
    (h : q ≠ k) : (setAttr attrs k v).lookup q = attrs.lookup q := by
  unfold setAttr
  split
  · exact lookup_map_setKey_ne k v q h attrs
  · rw [List.lookup_append]
    have hb : (q == k) = false := by simpa using h
    cases hq : attrs.lookup q with
    | none => simp [List.lookup_cons, hb]
    | some b => simp

theorem imgStep_no_src (dl : String → String × Option (String × List Nat))
    (attrs : List (String × String)) (h : attrs.lookup "src" = none) :
    imgStep dl attrs = (attrs, []) := by
  unfold imgStep
  rw [h]

theorem imgStep_empty_src (dl : String → String × Option (String × List Nat))
    (attrs : List (String × String)) (h : attrs.lookup "src" = some "") :
    imgStep dl attrs = (attrs, []) := by
  unfold imgStep
  rw [h]
  simp

theorem imgStep_src (dl : String → String × Option (String × List Nat))
    (attrs : List (String × String)) (s : String)
    (h : attrs.lookup "src" = some s) (hs : s ≠ "") :
    (imgStep dl attrs).1.lookup "src" = some (dl s).1 ∧
    (imgStep dl attrs).2 = ((dl s).2).toList := by
  unfold imgStep
  rw [h]
  dsimp only
  rw [if_neg hs]
  constructor
  · show (if _ then setAttr (setAttr attrs "src" (dl s).1) "alt" _
        else setAttr attrs "src" (dl s).1).lookup "src" = some (dl s).1
    split
    · rw [lookup_setAttr_ne _ _ _ _ (by decide), lookup_setAttr_self]
    · rw [lookup_setAttr_self]
  · show (match (dl s).2 with | some w => [w] | none => []) = ((dl s).2).toList
    cases (dl s).2 <;> rfl

mutual
/-- The writes of `process_images` on one node are exactly one download
attempt per truthy `img` source, in document order. -/
theorem processNode_writes (dl : String → String × Option (String × List Nat))
    (n : HNode) : (processNode dl n).2 =
      (truthySrcs (imgAttrsNode n)).filterMap (fun s => (dl s).2) := by
  match n with
  | .text s => rfl
  | .comment s => rfl
  | .elem tag attrs ch =>
    show (if tag = "img" then imgStep dl attrs else (attrs, [])).2 ++
        (processList dl ch).2 = _
    rw [processList_writes dl ch]
    simp only [imgAttrsNode]
    split
    case isTrue htag =>
      simp only [truthySrcs, List.filterMap_append, List.filterMap_cons,
        List.filterMap_nil, List.nil_append]
      unfold imgStep
      cases hsrc : attrs.lookup "src" with
      | none => simp
      | some s =>
        dsimp only
        by_cases hs : s = ""
        · subst hs
          simp
        · rw [if_neg hs]
          simp only [if_neg hs]
          cases hw : (dl s).2 <;> simp [hw]
    case isFalse htag =>
      simp [truthySrcs]

theorem processList_writes (dl : String → String × Option (String × List Nat))
    (l : List HNode) : (processList dl l).2 =
      (truthySrcs (imgAttrsList l)).filterMap (fun s => (dl s).2) := by
  match l with
  | [] => rfl
  | n :: r =>
    show (processNode dl n).2 ++ (processList dl r).2 = _
    rw [processNode_writes dl n, processList_writes dl r]
    simp only [imgAttrsList]
    simp [truthySrcs, List.filterMap_append]
end

mutual
/-- The `img` attribute lists after `process_images` are the pointwise
`imgStep` images of the originals, in document order. -/
theorem processNode_imgAttrs
    (dl : String → String × Option (String × List Nat)) (n : HNode) :
    imgAttrsNode (processNode dl n).1 =
      (imgAttrsNode n).map (fun attrs => (imgStep dl attrs).1) := by
  match n with
  | .text s => rfl
  | .comment s => rfl
  | .elem tag attrs ch =>
    show imgAttrsNode (.elem tag
        (if tag = "img" then imgStep dl attrs else (attrs, [])).1
        (processList dl ch).1) = _
    simp only [imgAttrsNode]
    rw [processList_imgAttrs dl ch]
    split
    case isTrue htag => simp
    case isFalse htag => simp

theorem processList_imgAttrs
    (dl : String → String × Option (String × List Nat)) (l : List HNode) :
    imgAttrsList (processList dl l).1 =
      (imgAttrsList l).map (fun attrs => (imgStep dl attrs).1) := by
  match l with
  | [] => rfl
  | n :: r =>
    show imgAttrsList ((processNode dl n).1 :: (processList dl r).1) = _
    simp only [imgAttrsList]
    rw [processNode_imgAttrs dl n, processList_imgAttrs dl r]
    simp
end

theorem download_image_fail (fb : String → Option (List Nat))
    (pageUrl imagesDir src : String)
    (h : fb (pyUrljoin pageUrl src) = none) :
    download_image fb pageUrl imagesDir src = (pyUrljoin pageUrl src, none) := by
  unfold download_image
  dsimp only
  rw [h]

theorem download_image_ok (fb : String → Option (List Nat))
    (pageUrl imagesDir src : String) (bytes : List Nat)
    (h : fb (pyUrljoin pageUrl src) = some bytes) :
    download_image fb pageUrl imagesDir src =
      ("images/" ++ imgFileName (pyUrljoin pageUrl src),
       some (imagesDir ++ "/" ++ imgFileName (pyUrljoin pageUrl src), bytes)) := by
  unfold download_image
  dsimp only
  rw [h]

/-! ## Claim C2 -/

/-- C2.  If the HTTP GET for the page itself fails (404 or any error
status), `convert_to_markdown` propagates the failure to the caller and no
Markdown (or any other) file is written: the filesystem log holds only the
two constructor-time directory creations. -/
theorem claim_C2 (env : NetEnv) (cv : ConvInput) (ig : Bool) (e : Nat)
    (h : env.fetchPage cv.url = .error e) :
    (convert_to_markdown env cv ig).1 = .error e ∧
    (∀ p c enc, FsEntry.file p c enc ∉ (convert_to_markdown env cv ig).2) ∧
    (convert_to_markdown env cv ig).2 = initEntries cv := by
  unfold convert_to_markdown
  rw [h]
  refine ⟨rfl, ?_, rfl⟩
  intro p c enc
  simp [initEntries]

/-- C2, witnessed on a concrete 404 environment. -/
theorem claim_C2_witness :
    (convert_to_markdown
      ⟨fun _ => .error 404, fun _ => none, fun _ => 0, "2026-01-01 00:00:00"⟩
      ⟨"https://example.com/missing", "output", none⟩ false).1 = .error 404 ∧
    (∀ p c enc, FsEntry.file p c enc ∉ (convert_to_markdown
      ⟨fun _ => .error 404, fun _ => none, fun _ => 0, "2026-01-01 00:00:00"⟩
      ⟨"https://example.com/missing", "output", none⟩ false).2) ∧
    (convert_to_markdown
      ⟨fun _ => .error 404, fun _ => none, fun _ => 0, "2026-01-01 00:00:00"⟩
      ⟨"https://example.com/missing", "output", none⟩ false).2 =
      initEntries ⟨"https://example.com/missing", "output", none⟩ :=
  claim_C2
    ⟨fun _ => .error 404, fun _ => none, fun _ => 0, "2026-01-01 00:00:00"⟩
    ⟨"https://example.com/missing", "output", none⟩ false 404 rfl

/-! ## Claim C9 -/

/-- C9.  The output directory and its `images` subdirectory are created by
the constructor, independent of the network environment: for every run
they are the first two entries of the filesystem log; in particular when
the page fetch fails, `convert_to_markdown` raises and both directories
nevertheless exist. -/
theorem claim_C9 (env : NetEnv) (cv : ConvInput) (ig : Bool) :
    ((convert_to_markdown env cv ig).2.take 2 =
      [.dir cv.output_dir, .dir (imagesDirOf cv)]) ∧
    (∀ e, env.fetchPage cv.url = .error e →
      (convert_to_markdown env cv ig).1 = .error e ∧
      FsEntry.dir cv.output_dir ∈ (convert_to_markdown env cv ig).2 ∧
      FsEntry.dir (imagesDirOf cv) ∈ (convert_to_markdown env cv ig).2) := by
  constructor
  · unfold convert_to_markdown
    cases h : env.fetchPage cv.url <;> simp [initEntries]
  · intro e h
    unfold convert_to_markdown
    rw [h]
    exact ⟨rfl, by simp [initEntries], by simp [initEntries]⟩

/-- C9, witnessed on a concrete failing environment. -/
theorem claim_C9_witness :
    ((convert_to_markdown
        ⟨fun _ => .error 500, fun _ => none, fun _ => 7, "2026-01-01 00:00:00"⟩
        ⟨"https://example.com/p", "out", none⟩ false).2.take 2 =
      [.dir "out", .dir (imagesDirOf ⟨"https://example.com/p", "out", none⟩)]) ∧
    (∀ e, (⟨fun _ => .error 500, fun _ => none, fun _ => 7,
        "2026-01-01 00:00:00"⟩ : NetEnv).fetchPage "https://example.com/p" =
        .error e →
      (convert_to_markdown
        ⟨fun _ => .error 500, fun _ => none, fun _ => 7, "2026-01-01 00:00:00"⟩
        ⟨"https://example.com/p", "out", none⟩ false).1 = .error e ∧
      FsEntry.dir "out" ∈ (convert_to_markdown
        ⟨fun _ => .error 500, fun _ => none, fun _ => 7, "2026-01-01 00:00:00"⟩
        ⟨"https://example.com/p", "out", none⟩ false).2 ∧
      FsEntry.dir (imagesDirOf ⟨"https://example.com/p", "out", none⟩) ∈
        (convert_to_markdown
        ⟨fun _ => .error 500, fun _ => none, fun _ => 7, "2026-01-01 00:00:00"⟩
        ⟨"https://example.com/p", "out", none⟩ false).2) :=
  claim_C9
    ⟨fun _ => .error 500, fun _ => none, fun _ => 7, "2026-01-01 00:00:00"⟩
    ⟨"https://example.com/p", "out", none⟩ false

/-! ## Claim C7 -/

/-- C7.  The output file: an explicit filename is used verbatim; otherwise
the basename is the title with every character among `<>:"/\|?*` replaced
by `_`, truncated to at most 50 characters; a blank result falls back to
`webpage_<hash(url) % 10000>`; the file is written with UTF-8 encoding at
`<output dir>/<name>.md`. -/
theorem claim_C7 (env : NetEnv) (cv : ConvInput) (ig : Bool)
    (doc : List HNode) (h : env.fetchPage cv.url = .ok doc) :
    ((convert_to_markdown env cv ig).1 =
      .ok (cv.output_dir ++ "/" ++
        outputBasename env.pyHash cv (pageTitle doc) ++ ".md")) ∧
    (∃ content, FsEntry.file
        (cv.output_dir ++ "/" ++
          outputBasename env.pyHash cv (pageTitle doc) ++ ".md")
        content "utf-8" ∈ (convert_to_markdown env cv ig).2) ∧
    (∀ f, cv.filename = some f →
      outputBasename env.pyHash cv (pageTitle doc) = f) ∧
    (cv.filename = none → pyStrip (sanitizeTitle (pageTitle doc)).data ≠ [] →
      outputBasename env.pyHash cv (pageTitle doc) =
        sanitizeTitle (pageTitle doc) ∧
      (sanitizeTitle (pageTitle doc)).data.length ≤ 50 ∧
      (∀ c ∈ (sanitizeTitle (pageTitle doc)).data, c ∉ forbiddenChars) ∧
      (∀ i, (hi : i < (sanitizeTitle (pageTitle doc)).data.length) →
        (hj : i < (pageTitle doc).data.length) →
        (sanitizeTitle (pageTitle doc)).data[i] =
          (if (pageTitle doc).data[i] ∈ forbiddenChars then '_'
           else (pageTitle doc).data[i]))) ∧
    (cv.filename = none → pyStrip (sanitizeTitle (pageTitle doc)).data = [] →
      outputBasename env.pyHash cv (pageTitle doc) =
        "webpage_" ++ toString (env.pyHash cv.url % 10000)) := by
  refine ⟨?_, ?_, ?_, ?_, ?_⟩
  · unfold convert_to_markdown
    rw [h]
  · unfold convert_to_markdown
    rw [h]
    dsimp only
    exact ⟨_, List.mem_append_right _ (List.mem_singleton_self _)⟩
  · intro f hf
    unfold outputBasename
    rw [hf]
  · intro hf hblank
    unfold outputBasename
    rw [hf]
    dsimp only
    rw [if_neg hblank]
    refine ⟨rfl, ?_, ?_, ?_⟩
    · unfold sanitizeTitle
      simp
    · intro c hc
      unfold sanitizeTitle at hc
      have hc2 := List.mem_of_mem_take hc
      obtain ⟨a, _, ha⟩ := List.mem_map.mp hc2
      subst ha
      split
      · decide
      · assumption
    · intro i hi hj
      unfold sanitizeTitle
      rw [List.getElem_take, List.getElem_map]
  · intro hf hblank
    unfold outputBasename
    rw [hf]
    dsimp only
    rw [if_pos hblank]

/-- C7, witnessed on a concrete page whose title contains forbidden
characters. -/
theorem claim_C7_witness :
    (let env : NetEnv :=
      ⟨fun _ => .ok [.elem "title" [] [.text "a<b>c:d\"e/f\\g|h?i*j"]],
       fun _ => none, fun _ => 3, "2026-01-01 00:00:00"⟩
     let cv : ConvInput := ⟨"https://example.com/p", "out", none⟩
     (convert_to_markdown env cv false).1 =
      .ok ("out" ++ "/" ++
        outputBasename env.pyHash cv
          (pageTitle [.elem "title" [] [.text "a<b>c:d\"e/f\\g|h?i*j"]]) ++
        ".md") ∧
     outputBasename env.pyHash cv
        (pageTitle [.elem "title" [] [.text "a<b>c:d\"e/f\\g|h?i*j"]]) =
       "a_b_c_d_e_f_g_h_i_j") := by
  refine ⟨?_, ?_⟩
  · exact (claim_C7 _ _ false _ rfl).1
  · decide

/-! ## Claim C8 -/

theorem hexFold_length (l : List Nat) :
    (l.foldr (fun b acc => byteHex b ++ acc) []).length = 2 * l.length := by
  induction l with
  | nil => rfl
  | cons b t ih =>
    show (byteHex b ++ _).length = _
    rw [List.length_append, ih]
    simp only [byteHex, List.length_cons, List.length_nil]
    omega

theorem md5Hex_length (m : List Nat) : (md5Hex m).length = 32 := by
  unfold md5Hex
  rw [hexFold_length]
  unfold md5Bytes
  simp [leBytes]

theorem hexDigit_mem (n : Nat) (h : n < 16) :
    hexDigit n ∈ "0123456789abcdef".data := by
  interval_cases n <;> decide

theorem mem_hexFold (l : List Nat) (hb : ∀ b ∈ l, b < 256) :
    ∀ c ∈ l.foldr (fun b acc => byteHex b ++ acc) [],
      c ∈ "0123456789abcdef".data := by
  induction l with
  | nil => simp
  | cons b t ih =>
    intro c hc
    simp only [List.foldr_cons, List.mem_append] at hc
    rcases hc with hc | hc
    · have hblt : b < 256 := hb b (List.mem_cons_self b t)
      simp only [byteHex, List.mem_cons, List.not_mem_nil] at hc
      rcases hc with rfl | hc
      · exact hexDigit_mem _ (Nat.div_lt_of_lt_mul (by omega))
      · rcases hc with rfl | hfalse
        · exact hexDigit_mem _ (Nat.mod_lt _ (by omega))
        · exact absurd hfalse (by simp)
    · exact ih (fun x hx => hb x (List.mem_cons_of_mem b hx)) c hc

theorem mem_md5Bytes_lt (m : List Nat) : ∀ b ∈ md5Bytes m, b < 256 := by
  intro b hb
  unfold md5Bytes leBytes at hb
  simp only [List.mem_append, List.mem_map, List.mem_range] at hb
  rcases hb with ((⟨i, _, rfl⟩ | ⟨i, _, rfl⟩) | ⟨i, _, rfl⟩) | ⟨i, _, rfl⟩ <;>
    exact Nat.mod_lt _ (by omega)

/-- C8.  The generated local image filename is `img_` followed by the
first 8 hex digits of the MD5 of the absolute image URL, followed by the
URL path's extension (`.jpg` when it has none); and within one run the
download result — the local filename included — is a function of the
resolved absolute URL alone. -/
theorem claim_C8 (u : String) :
    (∃ hx ext, imgFileName u = "img_" ++ hx ++ ext ∧
      hx.length = 8 ∧
      hx.data = (md5Hex (utf8Encode u)).take 8 ∧
      (∀ c ∈ hx.data, c ∈ "0123456789abcdef".data) ∧
      ((splitextExt (urlparsePath u) ≠ "" ∧
        ext = splitextExt (urlparsePath u)) ∨
       (splitextExt (urlparsePath u) = "" ∧ ext = ".jpg"))) ∧
    (∀ (fb : String → Option (List Nat)) (pageUrl dir s₁ s₂ : String),
      pyUrljoin pageUrl s₁ = pyUrljoin pageUrl s₂ →
      download_image fb pageUrl dir s₁ = download_image fb pageUrl dir s₂) := by
  constructor
  · refine ⟨String.mk ((md5Hex (utf8Encode u)).take 8),
      (if splitextExt (urlparsePath u) = "" then ".jpg"
       else splitextExt (urlparsePath u)), ?_, ?_, rfl, ?_, ?_⟩
    · rfl
    · show ((md5Hex (utf8Encode u)).take 8).length = 8
      rw [List.length_take, md5Hex_length]
      rfl
    · intro c hc
      exact mem_hexFold _ (mem_md5Bytes_lt _) c (List.mem_of_mem_take hc)
    · by_cases he : splitextExt (urlparsePath u) = ""
      · right
        exact ⟨he, by rw [if_pos he]⟩
      · left
        exact ⟨he, by rw [if_neg he]⟩
  · intro fb pageUrl dir s₁ s₂ h
    unfold download_image
    rw [h]

/-- C8, witnessed at a concrete URL and two sources resolving to the same
absolute URL. -/
theorem claim_C8_witness :
    (∃ hx ext, imgFileName "https://example.com/a.png" =
        "img_" ++ hx ++ ext ∧
      hx.length = 8 ∧
      hx.data = (md5Hex (utf8Encode "https://example.com/a.png")).take 8 ∧
      (∀ c ∈ hx.data, c ∈ "0123456789abcdef".data) ∧
      ((splitextExt (urlparsePath "https://example.com/a.png") ≠ "" ∧
        ext = splitextExt (urlparsePath "https://example.com/a.png")) ∨
       (splitextExt (urlparsePath "https://example.com/a.png") = "" ∧
        ext = ".jpg"))) ∧
    (pyUrljoin "https://example.com/page" "/a.png" =
       pyUrljoin "https://example.com/page" "//example.com/a.png" →
     download_image (fun _ => some [1]) "https://example.com/page" "out/images"
         "/a.png" =
       download_image (fun _ => some [1]) "https://example.com/page"
         "out/images" "//example.com/a.png") :=
  ⟨(claim_C8 "https://example.com/a.png").1,
   fun h => (claim_C8 "https://example.com/a.png").2
     (fun _ => some [1]) "https://example.com/page" "out/images"
     "/a.png" "//example.com/a.png" h⟩

/-! ## Claim C6 -/

/-- C6.  What `clean_html` actually does on a document holding a comment
node, a plain text node containing the characters `<!--`, and the four
noise elements: the noise elements are removed, but the comment node
*survives* (a parsed comment's content does not contain the `<!--` marker
the filter looks for), while the innocent text node is removed.  This
contradicts the claim that all comment nodes are removed and nothing else
besides the four element kinds. -/
theorem claim_C6_behaviour :
    clean_html [.elem "div" [] [.comment " a comment ", .text "keep",
        .text "x<!--y", .elem "script" [] [.text "junk"],
        .elem "meta" [("charset", "utf-8")] [], .elem "style" [] [],
        .elem "link" [("rel", "x")] []]] =
      [.elem "div" [] [.comment " a comment ", .text "keep"]] := by
  rfl

/-! ## Claim C4 -/

/-- C4.  What the code actually does under `--no-images`: `main` only sets
`h.ignore_images`, which suppresses image markup in the Markdown output;
`process_images` still runs, so the image is still fetched and written
under `images/` even though the Markdown body (`T` alone) contains no
reference to it.  This contradicts the claim (and the flag's own help text
`不下载图片`) that image downloading is skipped entirely. -/
theorem claim_C4_behaviour :
    mainRun
      ⟨fun _ => .ok [.elem "body" []
          [.elem "img" [("src", "https://example.com/i.png")] [], .text "T"]],
        fun _ => some [9, 8], fun _ => 0, "2026-01-01 00:00:00"⟩
      ⟨"https://example.com/p", "out", none, true⟩ =
    (.ok "out/webpage.md",
     [.dir "out", .dir "out/images",
      .bin ("out/images/" ++ imgFileName "https://example.com/i.png") [9, 8],
      .file "out/webpage.md"
        "---\ntitle: webpage\nsource: https://example.com/p\ndate: 2026-01-01 00:00:00\n---\n\nT"
        "utf-8"]) := by
  rfl

/-! ## Claim C10 -/

/-- C10, counterexample to the claim as stated: an `img` element *with* a
`src` attribute whose value is the empty string is skipped (`if not src:
continue`), so nothing is downloaded or written even though every image
fetch in the environment would succeed. -/
theorem claim_C10_counterexample :
    (convert_to_markdown
      ⟨fun _ => .ok [.elem "body" [] [.elem "img" [("src", "")] []]],
        fun _ => some [1], fun _ => 0, "d"⟩
      ⟨"https://example.com/p", "out", none⟩ false).2 =
      [.dir "out", .dir "out/images",
       .file "out/webpage.md"
         "---\ntitle: webpage\nsource: https://example.com/p\ndate: d\n---\n\n![]()"
         "utf-8"] ∧
    (([("src", "")] : List (String × String)).lookup "src").isSome = true := by
  exact ⟨rfl, by decide⟩

/-- C10 as amended.  Image processing runs over the whole cleaned document
before the main-content region is selected: the binary writes of a
conversion are one download attempt per `img` with a *non-empty* `src`
anywhere in the cleaned page, in document order — a formula that does not
mention the selected region at all; each such source is fetched at its
resolved URL and, on success, written under the images subdirectory; an
`img` without a `src` attribute (or with an empty one) is left with its
attributes unchanged. -/
theorem claim_C10_amended (env : NetEnv) (cv : ConvInput) (ig : Bool)
    (doc : List HNode) (h : env.fetchPage cv.url = .ok doc) :
    (∃ p content, (convert_to_markdown env cv ig).2 =
      initEntries cv ++
      ((truthySrcs (imgAttrsList (clean_html doc))).filterMap
        (fun s => (download_image env.fetchBytes cv.url (imagesDirOf cv) s).2)).map
          (fun w => .bin w.1 w.2) ++
      [.file p content "utf-8"]) ∧
    (∀ s, (download_image env.fetchBytes cv.url (imagesDirOf cv) s).2 =
      (env.fetchBytes (pyUrljoin cv.url s)).map
        (fun b => (imagesDirOf cv ++ "/" ++ imgFileName (pyUrljoin cv.url s), b))) ∧
    (imgAttrsList (process_images env.fetchBytes cv.url (imagesDirOf cv)
        (clean_html doc)).1 =
      (imgAttrsList (clean_html doc)).map
        (fun attrs => (imgStep (download_image env.fetchBytes cv.url
          (imagesDirOf cv)) attrs).1)) ∧
    (∀ dl attrs, attrs.lookup "src" = none ∨ attrs.lookup "src" = some "" →
      (imgStep dl attrs).1 = attrs) := by
  have process_images_writes : ∀ (fb : String → Option (List Nat))
      (url dir : String) (d : List HNode),
      (process_images fb url dir d).2 =
        (truthySrcs (imgAttrsList d)).filterMap
          (fun s => (download_image fb url dir s).2) :=
    fun fb url dir d => processList_writes _ _
  refine ⟨?_, ?_, ?_, ?_⟩
  · unfold convert_to_markdown
    rw [h]
    dsimp only
    rw [process_images_writes]
    exact ⟨_, _, rfl⟩
  · intro s
    unfold download_image
    dsimp only
    cases hb : env.fetchBytes (pyUrljoin cv.url s) <;> simp
  · exact processList_imgAttrs _ _
  · intro dl attrs hsrc
    rcases hsrc with hn | he
    · rw [imgStep_no_src dl attrs hn]
    · rw [imgStep_empty_src dl attrs he]

/-- C10 as amended, witnessed: a page whose `article` region holds one
image while a second image sits outside it; both are downloaded. -/
theorem claim_C10_amended_witness :
    (∃ p content, (convert_to_markdown
      ⟨fun _ => .ok [.elem "body" []
          [.elem "article" [] [.elem "img" [("src", "/in.png")] []],
           .elem "img" [("src", "/out.png")] []]],
        fun _ => some [5], fun _ => 0, "d"⟩
      ⟨"https://h.test/p", "o", none⟩ false).2 =
      initEntries ⟨"https://h.test/p", "o", none⟩ ++
      ((truthySrcs (imgAttrsList (clean_html [.elem "body" []
          [.elem "article" [] [.elem "img" [("src", "/in.png")] []],
           .elem "img" [("src", "/out.png")] []]]))).filterMap
        (fun s => (download_image (fun _ => some [5]) "https://h.test/p"
          (imagesDirOf ⟨"https://h.test/p", "o", none⟩) s).2)).map
          (fun w => .bin w.1 w.2) ++
      [.file p content "utf-8"]) ∧
    truthySrcs (imgAttrsList (clean_html [.elem "body" []
        [.elem "article" [] [.elem "img" [("src", "/in.png")] []],
         .elem "img" [("src", "/out.png")] []]])) = ["/in.png", "/out.png"] := by
  refine ⟨(claim_C10_amended
    ⟨fun _ => .ok [.elem "body" []
        [.elem "article" [] [.elem "img" [("src", "/in.png")] []],
         .elem "img" [("src", "/out.png")] []]],
      fun _ => some [5], fun _ => 0, "d"⟩
    ⟨"https://h.test/p", "o", none⟩ false _ rfl).1, ?_⟩
  rfl

/-! ## Claim C3 -/

set_option maxRecDepth 100000 in
/-- C3, counterexample to the claim as stated: when the download of the
*relative* source `bad.png` fails, the Markdown file is still produced,
but the failed image's reference is the URL resolved against the page
(`https://example.com/bad.png`), not the original attribute value
`bad.png` unmodified (`urljoin` runs before the `try` block's failure
point, and the `except` branch returns the resolved URL). -/
theorem claim_C3_counterexample :
    (convert_to_markdown
      ⟨fun _ => .ok [.elem "body" []
          [.elem "img" [("src", "bad.png"), ("alt", "B")] [],
           .elem "img" [("src", "/a.png"), ("alt", "A")] []]],
        fun u => if u = "https://example.com/a.png" then some [7] else none,
        fun _ => 0, "d"⟩
      ⟨"https://example.com/page", "out", some "f"⟩ false) =
    (.ok "out/f.md",
     [.dir "out", .dir "out/images",
      .bin "out/images/img_8c11d92f.png" [7],
      .file "out/f.md"
        "---\ntitle: webpage\nsource: https://example.com/page\ndate: d\n---\n\n![B](https://example.com/bad.png)![A](images/img_8c11d92f.png)"
        "utf-8"]) ∧
    ("https://example.com/bad.png" : String) ≠ "bad.png" := by
  refine ⟨?_, by decide⟩
  decide

/-- C3 as amended.  When the page fetch succeeds, the conversion always
completes and writes the Markdown file, regardless of image failures; in
the processed document every `img` whose non-empty source fails to
download carries, as its reference, the source URL *resolved against the
page URL*, while every successfully downloaded one carries the relative
local path `images/<generated name>`. -/
theorem claim_C3_amended (env : NetEnv) (cv : ConvInput) (ig : Bool)
    (doc : List HNode) (h : env.fetchPage cv.url = .ok doc) :
    ((convert_to_markdown env cv ig).1 =
      .ok (cv.output_dir ++ "/" ++
        outputBasename env.pyHash cv (pageTitle doc) ++ ".md")) ∧
    (∃ content, FsEntry.file
        (cv.output_dir ++ "/" ++
          outputBasename env.pyHash cv (pageTitle doc) ++ ".md")
        content "utf-8" ∈ (convert_to_markdown env cv ig).2) ∧
    (imgAttrsList (process_images env.fetchBytes cv.url (imagesDirOf cv)
        (clean_html doc)).1 =
      (imgAttrsList (clean_html doc)).map
        (fun attrs => (imgStep (download_image env.fetchBytes cv.url
          (imagesDirOf cv)) attrs).1)) ∧
    (∀ attrs s, attrs.lookup "src" = some s → s ≠ "" →
      (env.fetchBytes (pyUrljoin cv.url s) = none →
        ((imgStep (download_image env.fetchBytes cv.url (imagesDirOf cv))
          attrs).1.lookup "src") = some (pyUrljoin cv.url s)) ∧
      (∀ b, env.fetchBytes (pyUrljoin cv.url s) = some b →
        ((imgStep (download_image env.fetchBytes cv.url (imagesDirOf cv))
          attrs).1.lookup "src") =
          some ("images/" ++ imgFileName (pyUrljoin cv.url s)))) := by
  refine ⟨?_, ?_, processList_imgAttrs _ _, ?_⟩
  · unfold convert_to_markdown
    rw [h]
  · unfold convert_to_markdown
    rw [h]
    dsimp only
    exact ⟨_, List.mem_append_right _ (List.mem_singleton_self _)⟩
  · intro attrs s hsrc hs
    have hstep := imgStep_src
      (download_image env.fetchBytes cv.url (imagesDirOf cv)) attrs s hsrc hs
    constructor
    · intro hfail
      rw [hstep.1, download_image_fail _ _ _ _ hfail]
    · intro b hok
      rw [hstep.1, download_image_ok _ _ _ _ b hok]

/-- C3 as amended, witnessed on the two-image page: one download fails
while the other succeeds, and the conversion still returns the output
path. -/
theorem claim_C3_amended_witness :
    ((convert_to_markdown
      ⟨fun _ => .ok [.elem "body" []
          [.elem "img" [("src", "bad.png"), ("alt", "B")] [],
           .elem "img" [("src", "/a.png"), ("alt", "A")] []]],
        fun u => if u = "https://example.com/a.png" then some [7] else none,
        fun _ => 0, "d"⟩
      ⟨"https://example.com/page", "out", some "f"⟩ false).1 =
      .ok ("out" ++ "/" ++
        outputBasename (fun _ => 0) ⟨"https://example.com/page", "out", some "f"⟩
          (pageTitle [.elem "body" []
            [.elem "img" [("src", "bad.png"), ("alt", "B")] [],
             .elem "img" [("src", "/a.png"), ("alt", "A")] []]]) ++ ".md")) ∧
    ((fun u => if u = "https://example.com/a.png" then some [7] else none :
        String → Option (List Nat))
      (pyUrljoin "https://example.com/page" "bad.png") = none →
      ((imgStep (download_image
          (fun u => if u = "https://example.com/a.png" then some [7] else none)
          "https://example.com/page"
          (imagesDirOf ⟨"https://example.com/page", "out", some "f"⟩))
          [("src", "bad.png"), ("alt", "B")]).1.lookup "src") =
        some (pyUrljoin "https://example.com/page" "bad.png")) := by
  refine ⟨(claim_C3_amended _ _ false _ rfl).1, ?_⟩
  exact fun hf => (((claim_C3_amended
    ⟨fun _ => .ok [.elem "body" []
        [.elem "img" [("src", "bad.png"), ("alt", "B")] [],
         .elem "img" [("src", "/a.png"), ("alt", "A")] []]],
      fun u => if u = "https://example.com/a.png" then some [7] else none,
      fun _ => 0, "d"⟩
    ⟨"https://example.com/page", "out", some "f"⟩ false _ rfl).2.2.2
    [("src", "bad.png"), ("alt", "B")] "bad.png" rfl (by decide)).1) hf

/-! ## Post-processing lemmas: existence of heading-core matches -/

/-- Existence of a heading-core match at the head of `v`, characterized by
the four scan quantities: the leading `#`-run length (in `[1,6]`), a
non-empty whitespace run after it, and either a character after the
whitespace run or a backtracking target at index at least 1. -/
theorem matchCore_isSome_iff (v : List Char) :
    (matchCore v).isSome = true ↔
      ((1 ≤ (v.takeWhile (· = '#')).length ∧
        (v.takeWhile (· = '#')).length ≤ 6) ∧
       1 ≤ ((v.dropWhile (· = '#')).takeWhile isPySpace).length ∧
       (((v.dropWhile (· = '#')).takeWhile isPySpace).length <
           (v.dropWhile (· = '#')).length ∨
         2 ≤ (v.dropWhile (· = '#')).length -
           ((v.dropWhile (· = '#')).reverse.takeWhile (· = '\n')).length)) := by
  unfold matchCore
  dsimp only
  split
  case isTrue ha =>
    split
    case isTrue hw0 =>
      refine iff_of_false (by simp) ?_
      intro hc
      omega
    case isFalse hw0 =>
      split
      case isTrue hlt =>
        exact iff_of_true rfl ⟨ha, by omega, Or.inl hlt⟩
      case isFalse hlt =>
        split
        case isTrue hk =>
          exact iff_of_true rfl ⟨ha, by omega, Or.inr hk⟩
        case isFalse hk =>
          refine iff_of_false (by simp) ?_
          intro hc
          rcases hc.2.2 with hlt2 | hk2
          · exact hlt hlt2
          · exact hk hk2
  case isFalse ha =>
    refine iff_of_false (by simp) ?_
    intro hc
    exact ha hc.1

theorem mem_drop_one_append {A B : List Char} (hA : A ≠ []) {y : Char}
    (hy : y ∈ B) : y ∈ (A ++ B).drop 1 := by
  cases A with
  | nil => exact absurd rfl hA
  | cons a A2 => simpa using Or.inr hy

/-- The backtracking condition `2 ≤ v.length - (trailing newline run)` says
exactly that some character other than a newline occurs past the head. -/
theorem trailCond_iff (v : List Char) :
    2 ≤ v.length - (v.reverse.takeWhile (· = '\n')).length ↔
      ∃ x ∈ v.drop 1, x ≠ '\n' := by
  have hsplit := List.takeWhile_append_dropWhile (fun x => decide (x = '\n'))
    v.reverse
  have hv : v = (v.reverse.dropWhile (· = '\n')).reverse ++
      (v.reverse.takeWhile (· = '\n')).reverse := by
    conv_lhs => rw [← List.reverse_reverse v, ← hsplit]
    rw [List.reverse_append]
  have hlen : v.length = (v.reverse.takeWhile (· = '\n')).length +
      (v.reverse.dropWhile (· = '\n')).length := by
    have h2 := congrArg List.length hsplit
    rw [List.length_append, List.length_reverse] at h2
    omega
  have hrunNl : ∀ x ∈ (v.reverse.takeWhile (· = '\n')).reverse, x = '\n' := by
    intro x hx
    have := List.mem_takeWhile_imp (List.mem_reverse.mp hx)
    simpa using this
  constructor
  · intro h
    cases hrest : v.reverse.dropWhile (· = '\n') with
    | nil =>
      rw [hrest] at hlen
      simp only [List.length_nil] at hlen
      omega
    | cons y ys =>
      have hy : ¬ (y = '\n') := by
        have := List.head?_dropWhile_not (fun x => decide (x = '\n')) v.reverse
        rw [hrest] at this
        simpa using this
      cases hys : ys with
      | nil =>
        rw [hrest, hys] at hlen
        simp at hlen
        omega
      | cons z zs =>
        refine ⟨y, ?_, hy⟩
        rw [hv, hrest, hys]
        rw [List.reverse_cons, List.append_assoc]
        exact mem_drop_one_append (by simp) (List.mem_append_left _ (by simp))
  · intro hex
    obtain ⟨x, hx, hnl⟩ := hex
    by_contra hlen2
    cases hrest : v.reverse.dropWhile (· = '\n') with
    | nil =>
      apply hnl
      have hx3 : x ∈ v.reverse := List.mem_reverse.mpr (List.mem_of_mem_drop hx)
      rw [← hsplit, hrest, List.append_nil] at hx3
      simpa using List.mem_takeWhile_imp hx3
    | cons y ys =>
      cases hys : ys with
      | nil =>
        apply hnl
        have h4 := hsplit
        rw [hrest, hys] at h4
        have h5 := congrArg List.reverse h4
        rw [List.reverse_reverse, List.reverse_append] at h5
        simp only [List.reverse_cons, List.reverse_nil, List.nil_append,
          List.singleton_append] at h5
        rw [← h5] at hx
        simp only [List.drop_succ_cons, List.drop_zero] at hx
        simpa using List.mem_takeWhile_imp (List.mem_reverse.mp hx)
      | cons z zs =>
        rw [hrest, hys] at hlen
        simp only [List.length_cons] at hlen
        omega

/-! ## Structure of `collapseNewlines` -/

theorem collapse_nil : collapseNewlines [] = [] := rfl

theorem take2_shape {t : List Char} (h : t.take 2 = ['\n', '\n']) :
    ∃ t2, t = '\n' :: '\n' :: t2 := by
  match t with
  | [] => simp at h
  | [a] => simp at h
  | a :: b :: t2 =>
    refine ⟨t2, ?_⟩
    simp only [List.take_succ_cons, List.take_zero] at h
    rw [List.cons.injEq, List.cons.injEq] at h
    rw [h.1, h.2.1]

theorem collapse_head? (s : List Char) :
    (collapseNewlines s).head? = s.head? := by
  rw [collapseNewlines_eq]
  match s with
  | [] => rfl
  | c :: t =>
    dsimp only
    split
    case isTrue h => rw [h.1]; rfl
    case isFalse h => rfl

theorem collapse_sublist_aux :
    ∀ (n : Nat) (s : List Char), s.length ≤ n → collapseNewlines s <+ s := by
  intro n
  induction n with
  | zero =>
    intro s h
    rw [List.length_eq_zero.mp (Nat.le_zero.mp h)]
    exact List.Sublist.refl _
  | succ k ih =>
    intro s hlen
    rw [collapseNewlines_eq]
    match s with
    | [] => exact List.Sublist.refl _
    | c :: t =>
      dsimp only
      simp only [List.length_cons] at hlen
      split
      case isTrue h =>
        obtain ⟨t2, rfl⟩ := take2_shape h.2
        rw [h.1]
        refine List.Sublist.cons₂ _ (List.Sublist.cons₂ _ ?_)
        have hq : (('\n' :: '\n' :: t2).dropWhile (· = '\n')) =
            t2.dropWhile (· = '\n') := by
          rw [List.dropWhile_cons_of_pos (by simp),
            List.dropWhile_cons_of_pos (by simp)]
        rw [hq]
        have h1 : collapseNewlines (t2.dropWhile (· = '\n')) <+
            t2.dropWhile (· = '\n') := by
          apply ih
          have hle : (t2.dropWhile (· = '\n')).length ≤ t2.length :=
            (List.dropWhile_sublist _).length_le
          simp only [List.length_cons] at hlen ⊢
          omega
        exact h1.trans ((List.dropWhile_sublist _).trans (List.sublist_cons_self _ _))
      case isFalse h =>
        exact List.Sublist.cons₂ _ (ih t (by omega))

theorem collapse_sublist (s : List Char) : collapseNewlines s <+ s :=
  collapse_sublist_aux s.length s (Nat.le_refl _)

theorem mem_dropWhile_nl_of_ne {x : Char} {l : List Char} (hx : x ∈ l)
    (hnl : x ≠ '\n') : x ∈ l.dropWhile (· = '\n') := by
  have := List.takeWhile_append_dropWhile (fun c => decide (c = '\n')) l
  rw [← this] at hx
  rcases List.mem_append.mp hx with hm | hm
  · exact absurd (by simpa using List.mem_takeWhile_imp hm) hnl
  · exact hm

theorem mem_collapse_of_ne_nl_aux :
    ∀ (n : Nat) (s : List Char), s.length ≤ n →
      ∀ x ∈ s, x ≠ '\n' → x ∈ collapseNewlines s := by
  intro n
  induction n with
  | zero =>
    intro s h x hx _
    rw [List.length_eq_zero.mp (Nat.le_zero.mp h)] at hx
    simp at hx
  | succ k ih =>
    intro s hlen x hx hnl
    rw [collapseNewlines_eq]
    match s with
    | [] => simp at hx
    | c :: t =>
      dsimp only
      simp only [List.length_cons] at hlen
      split
      case isTrue h =>
        obtain ⟨t2, ht⟩ := take2_shape h.2
        refine List.mem_cons_of_mem _ (List.mem_cons_of_mem _ ?_)
        have hxt2 : x ∈ t2 := by
          rcases List.mem_cons.mp hx with rfl | hx2
          · exact absurd h.1 hnl
          · rw [ht] at hx2
            rcases List.mem_cons.mp hx2 with rfl | hx3
            · exact absurd rfl hnl
            · rcases List.mem_cons.mp hx3 with rfl | hx4
              · exact absurd rfl hnl
              · exact hx4
        have hq : (t.dropWhile (· = '\n')) = t2.dropWhile (· = '\n') := by
          rw [ht, List.dropWhile_cons_of_pos (by simp),
            List.dropWhile_cons_of_pos (by simp)]
        rw [hq]
        apply ih
        · have hle : (t2.dropWhile (· = '\n')).length ≤ t2.length :=
            (List.dropWhile_sublist _).length_le
          rw [ht] at hlen
          simp only [List.length_cons] at hlen
          omega
        · exact mem_dropWhile_nl_of_ne hxt2 hnl
        · exact hnl
      case isFalse h =>
        rcases List.mem_cons.mp hx with rfl | hx2
        · exact List.mem_cons_self _ _
        · exact List.mem_cons_of_mem _ (ih t (by omega) x hx2 hnl)

theorem mem_collapse_of_ne_nl {x : Char} {s : List Char} (hx : x ∈ s)
    (hnl : x ≠ '\n') : x ∈ collapseNewlines s :=
  mem_collapse_of_ne_nl_aux s.length s (Nat.le_refl _) x hx hnl

theorem collapse_append_no_nl (h : List Char) (r : List Char)
    (hh : ∀ c ∈ h, c ≠ '\n') :
    collapseNewlines (h ++ r) = h ++ collapseNewlines r := by
  induction h with
  | nil => simp
  | cons c h2 ih =>
    rw [List.cons_append, collapseNewlines_eq]
    dsimp only
    rw [if_neg]
    · rw [ih (fun d hd => hh d (List.mem_cons_of_mem _ hd)), List.cons_append]
    · intro hc
      exact hh c (List.mem_cons_self _ _) hc.1

theorem collapse_hashSplit (s : List Char) :
    (collapseNewlines s).takeWhile (· = '#') = s.takeWhile (· = '#') ∧
    (collapseNewlines s).dropWhile (· = '#') =
      collapseNewlines (s.dropWhile (· = '#')) := by
  have hs := List.takeWhile_append_dropWhile (fun c => decide (c = '#')) s
  have hAnl : ∀ c ∈ s.takeWhile (· = '#'), c ≠ '\n' := by
    intro c hc
    have := List.mem_takeWhile_imp hc
    simp only [decide_eq_true_eq] at this
    rw [this]
    decide
  have hAall : ∀ c ∈ s.takeWhile (· = '#'), decide (c = '#') = true := by
    intro c hc
    simpa using List.mem_takeWhile_imp hc
  have hc : collapseNewlines s =
      s.takeWhile (· = '#') ++ collapseNewlines (s.dropWhile (· = '#')) := by
    conv_lhs => rw [← hs]
    exact collapse_append_no_nl _ _ hAnl
  have hhd : (collapseNewlines (s.dropWhile (· = '#'))).takeWhile
      (· = '#') = [] := by
    cases hcu : collapseNewlines (s.dropWhile (· = '#')) with
    | nil => rfl
    | cons y yt =>
      have hu : (s.dropWhile (· = '#')).head? = some y := by
        rw [← collapse_head? (s.dropWhile (· = '#')), hcu]
        rfl
      have hny : ¬ ((fun c => decide (c = '#')) y = true) := by
        have hp := List.head?_dropWhile_not (fun c => decide (c = '#')) s
        cases hdw : (s.dropWhile (· = '#')).head? with
        | none => rw [hdw] at hu; exact absurd hu (by simp)
        | some z =>
          rw [hdw] at hu
          rw [Option.some_inj] at hu
          rw [hdw] at hp
          subst hu
          simpa using hp
      exact List.takeWhile_cons_of_neg hny
  refine ⟨?_, ?_⟩
  · rw [hc, List.takeWhile_append]
    rw [List.takeWhile_eq_self_iff.mpr hAall]
    rw [if_pos rfl, hhd, List.append_nil]
  · rw [hc, List.dropWhile_append_of_pos hAall]
    cases hcu : collapseNewlines (s.dropWhile (· = '#')) with
    | nil => rfl
    | cons y yt =>
      rw [hcu] at hhd
      apply List.dropWhile_cons_of_neg
      intro hy
      simp [List.takeWhile_cons, hy] at hhd

theorem mem_drop_one_collapse {x : Char} {u : List Char}
    (hx : x ∈ (collapseNewlines u).drop 1) (hnl : x ≠ '\n') :
    x ∈ u.drop 1 := by
  match u with
  | [] => rw [collapse_nil] at hx; exact absurd hx (by simp)
  | c :: t =>
    rw [collapseNewlines_eq] at hx
    dsimp only at hx
    split at hx
    case isTrue h =>
      simp only [List.drop_succ_cons, List.drop_zero] at hx
      rcases List.mem_cons.mp hx with rfl | hx2
      · exact absurd rfl hnl
      · have h3 : x ∈ t.dropWhile (· = '\n') := (collapse_sublist _).subset hx2
        have h4 : x ∈ t := (List.dropWhile_sublist _).subset h3
        simpa using h4
    case isFalse h =>
      simp only [List.drop_succ_cons, List.drop_zero] at hx ⊢
      exact (collapse_sublist t).subset hx

/-- A heading-core match inside the newline-collapsed string implies one at
the same spot of the original string. -/
theorem matchCore_collapse (s : List Char)
    (h : (matchCore (collapseNewlines s)).isSome = true) :
    (matchCore s).isSome = true := by
  rw [matchCore_isSome_iff] at h ⊢
  rw [(collapse_hashSplit s).1, (collapse_hashSplit s).2] at h
  obtain ⟨ha, hw, hbr⟩ := h
  refine ⟨ha, ?_, ?_⟩
  · cases hcu : collapseNewlines (s.dropWhile (· = '#')) with
    | nil => rw [hcu] at hw; exact absurd hw (by simp)
    | cons y yt =>
      have hy : isPySpace y = true := by
        rw [hcu] at hw
        by_contra hny
        rw [List.takeWhile_cons_of_neg (by simpa using hny)] at hw
        exact absurd hw (by simp)
      have hu : (s.dropWhile (· = '#')).head? = some y := by
        rw [← collapse_head? (s.dropWhile (· = '#')), hcu]
        rfl
      cases hud : s.dropWhile (· = '#') with
      | nil => rw [hud] at hu; exact absurd hu (by simp)
      | cons z zt =>
        rw [hud] at hu
        simp only [List.head?_cons, Option.some_inj] at hu
        subst hu
        rw [List.takeWhile_cons_of_pos hy]
        simp
  · by_cases hnws : ∀ c ∈ s.dropWhile (· = '#'), isPySpace c = true
    · have hcuws : ∀ c ∈ collapseNewlines (s.dropWhile (· = '#')),
          isPySpace c = true :=
        fun c hc => hnws c ((collapse_sublist _).subset hc)
      rcases hbr with hlt | hk
      · exfalso
        rw [List.takeWhile_eq_self_iff.mpr hcuws] at hlt
        exact Nat.lt_irrefl _ hlt
      · right
        rw [trailCond_iff] at hk ⊢
        obtain ⟨x, hx, hxnl⟩ := hk
        exact ⟨x, mem_drop_one_collapse hx hxnl, hxnl⟩
    · left
      push_neg at hnws
      obtain ⟨c, hcmem, hcns⟩ := hnws
      have hne : (s.dropWhile (· = '#')).takeWhile isPySpace ≠
          s.dropWhile (· = '#') := by
        intro he
        exact hcns (List.mem_takeWhile_imp (he.symm ▸ hcmem))
      have hle : ((s.dropWhile (· = '#')).takeWhile isPySpace).length ≤
          (s.dropWhile (· = '#')).length :=
        (List.takeWhile_sublist _).length_le
      rcases Nat.lt_or_ge ((s.dropWhile (· = '#')).takeWhile
          isPySpace).length (s.dropWhile (· = '#')).length with hlt | hge
      · exact hlt
      · exact absurd ((List.takeWhile_sublist _).eq_of_length
          (Nat.le_antisymm hle hge)) hne

theorem matchCore_nl (x : List Char) : matchCore ('\n' :: x) = none := by
  unfold matchCore
  dsimp only
  rw [List.takeWhile_cons_of_neg (by decide)]
  simp

theorem hasCore_cons_nl (x : List Char) : hasCore ('\n' :: x) = hasCore x := by
  show ((matchCore ('\n' :: x)).isSome || hasCore x) = hasCore x
  rw [matchCore_nl]
  simp

theorem hasCore_suffix {v u : List Char} (h : v <:+ u)
    (hv : hasCore v = true) : hasCore u = true := by
  obtain ⟨p, rfl⟩ := h
  induction p with
  | nil => simpa using hv
  | cons a p2 ih =>
    rw [List.cons_append]
    show ((matchCore (a :: (p2 ++ v))).isSome || hasCore (p2 ++ v)) = true
    rw [ih, Bool.or_true]

theorem hasCore_collapse_aux :
    ∀ (n : Nat) (s : List Char), s.length ≤ n →
      hasCore (collapseNewlines s) = true → hasCore s = true := by
  intro n
  induction n with
  | zero =>
    intro s h hc
    rw [List.length_eq_zero.mp (Nat.le_zero.mp h), collapse_nil] at hc
    exact absurd hc (by decide)
  | succ k ih =>
    intro s hlen hc
    match s with
    | [] => rw [collapse_nil] at hc; exact absurd hc (by decide)
    | c :: t =>
      simp only [List.length_cons] at hlen
      rw [collapseNewlines_eq] at hc
      dsimp only at hc
      split at hc
      case isTrue h =>
        rw [hasCore_cons_nl, hasCore_cons_nl] at hc
        have hle : (t.dropWhile (· = '\n')).length ≤ t.length :=
          (List.dropWhile_sublist _).length_le
        have h2 : hasCore (t.dropWhile (· = '\n')) = true :=
          ih _ (by omega) hc
        have h3 : hasCore t = true :=
          hasCore_suffix (List.dropWhile_suffix _) h2
        show ((matchCore (c :: t)).isSome || hasCore t) = true
        rw [h3, Bool.or_true]
      case isFalse h =>
        have he : collapseNewlines (c :: t) = c :: collapseNewlines t := by
          rw [collapseNewlines_eq]
          dsimp only
          rw [if_neg h]
        have hc2 : ((matchCore (c :: collapseNewlines t)).isSome ||
            hasCore (collapseNewlines t)) = true := hc
        rw [Bool.or_eq_true_iff] at hc2
        rcases hc2 with h1 | h2
        · rw [← he] at h1
          have h4 := matchCore_collapse (c :: t) h1
          show ((matchCore (c :: t)).isSome || hasCore t) = true
          rw [h4, Bool.true_or]
        · have h5 : hasCore t = true := ih t (by omega) h2
          show ((matchCore (c :: t)).isSome || hasCore t) = true
          rw [h5, Bool.or_true]

/-- A heading-core match inside the collapsed string implies one in the
original: `hasCore` can only be created, never destroyed, by reading the
argument of `collapseNewlines`. -/
theorem hasCore_collapse {s : List Char}
    (h : hasCore (collapseNewlines s) = true) : hasCore s = true :=
  hasCore_collapse_aux s.length s (Nat.le_refl _) h

theorem imageSub_id_aux : ∀ (n : Nat) (s : List Char), s.length ≤ n →
    imageSubAux s = s := by
  intro n
  induction n with
  | zero =>
    intro s h
    rw [List.length_eq_zero.mp (Nat.le_zero.mp h)]
    rfl
  | succ k ih =>
    intro s hlen
    rw [imageSubAux_eq]
    match s with
    | [] => rfl
    | c :: t =>
      simp only [List.length_cons] at hlen
      dsimp only
      cases hm : matchImage (c :: t) with
      | some v =>
        obtain ⟨alt, url, rest⟩ := v
        dsimp only
        have he := matchImage_eq hm
        have hr := matchImage_rest_lt hm
        simp only [List.length_cons] at hr
        rw [ih rest (by omega)]
        exact he.symm
      | none => rw [ih t (by omega)]

/-- The image-link substitution of `post_process_markdown` is the identity:
the replacement template emits exactly the matched text. -/
theorem imageSubAux_id (s : List Char) : imageSubAux s = s :=
  imageSub_id_aux s.length s (Nat.le_refl _)

theorem matchCore_none_of_not_hasCore {s : List Char}
    (h : hasCore s = false) : matchCore s = none := by
  match s with
  | [] => rfl
  | c :: t =>
    have h2 : ((matchCore (c :: t)).isSome || hasCore t) = false := h
    cases hm : matchCore (c :: t) with
    | none => rfl
    | some v => rw [hm] at h2; simp at h2

/-- When no heading core matches anywhere, the heading substitution is the
identity. -/
theorem headingSub_id {s : List Char} (h : hasCore s = false) :
    headingSubAux s = s := by
  induction s with
  | nil => rfl
  | cons c t ih =>
    have hsplit : ((matchCore (c :: t)).isSome || hasCore t) = false := h
    rw [Bool.or_eq_false_iff] at hsplit
    obtain ⟨h1, h2⟩ := hsplit
    have hm1 : matchCore (c :: t) = none := by
      cases hm : matchCore (c :: t) with
      | none => rfl
      | some v => rw [hm] at h1; simp at h1
    have hm2 : matchCore t = none := matchCore_none_of_not_hasCore h2
    have hmh : matchHeading (c :: t) = none := by
      unfold matchHeading
      dsimp only
      split
      · rw [hm2]
      · rw [hm1]
    rw [headingSubAux_eq]
    dsimp only
    rw [hmh]
    dsimp only
    rw [ih h2]

/-- A heading-core match survives appending arbitrary text on the right. -/
theorem matchCore_extend {t : List Char} (q : List Char)
    (h : (matchCore t).isSome = true) :
    (matchCore (t ++ q)).isSome = true := by
  rw [matchCore_isSome_iff] at h ⊢
  obtain ⟨ha, hw, hbr⟩ := h
  have hu : t.dropWhile (· = '#') ≠ [] := by
    intro he
    rw [he] at hw
    simp at hw
  have hlen : (t.takeWhile (· = '#')).length +
      (t.dropWhile (· = '#')).length = t.length := by
    have h2 := congrArg List.length
      (List.takeWhile_append_dropWhile (fun c => decide (c = '#')) t)
    rw [List.length_append] at h2
    exact h2
  have hupos : 1 ≤ (t.dropWhile (· = '#')).length := by
    cases hud : t.dropWhile (· = '#') with
    | nil => exact absurd hud hu
    | cons d u2 => simp
  have htw : ¬ ((t.takeWhile (· = '#')).length = t.length) := by omega
  have e1 : (t ++ q).takeWhile (· = '#') = t.takeWhile (· = '#') := by
    rw [List.takeWhile_append, if_neg htw]
  have e2 : (t ++ q).dropWhile (· = '#') = t.dropWhile (· = '#') ++ q := by
    rw [List.dropWhile_append, if_neg]
    rw [List.isEmpty_eq_false.mpr hu]
    simp
  rw [e1, e2]
  refine ⟨ha, ?_, ?_⟩
  · cases hud : t.dropWhile (· = '#') with
    | nil => exact absurd hud hu
    | cons d u2 =>
      rw [hud] at hw
      have hd : isPySpace d = true := by
        by_contra hnd
        rw [List.takeWhile_cons_of_neg (by simpa using hnd)] at hw
        simp at hw
      rw [List.cons_append, List.takeWhile_cons_of_pos hd]
      simp
  · rcases hbr with hlt | hk
    · left
      have e3 : (t.dropWhile (· = '#') ++ q).takeWhile isPySpace =
          (t.dropWhile (· = '#')).takeWhile isPySpace := by
        rw [List.takeWhile_append, if_neg]
        omega
      rw [e3, List.length_append]
      omega
    · by_cases hfull : ((t.dropWhile (· = '#') ++ q).takeWhile
          isPySpace).length < (t.dropWhile (· = '#') ++ q).length
      · exact Or.inl hfull
      · right
        rw [trailCond_iff] at hk ⊢
        obtain ⟨x, hx, hxnl⟩ := hk
        refine ⟨x, ?_, hxnl⟩
        rw [List.drop_append_of_le_length hupos]
        exact List.mem_append_left _ hx

theorem hasCore_append_left {v : List Char} (q : List Char)
    (hv : hasCore v = true) : hasCore (v ++ q) = true := by
  induction v with
  | nil => exact absurd hv (by decide)
  | cons c t ih =>
    have hsplit : ((matchCore (c :: t)).isSome || hasCore t) = true := hv
    rw [Bool.or_eq_true_iff] at hsplit
    rw [List.cons_append]
    show ((matchCore (c :: (t ++ q))).isSome || hasCore (t ++ q)) = true
    rcases hsplit with h1 | h2
    · have h3 := matchCore_extend q h1
      rw [List.cons_append] at h3
      rw [h3, Bool.true_or]
    · rw [ih h2, Bool.or_true]

/-- `hasCore` is monotone under taking a containing string: an occurrence
inside a contiguous fragment is an occurrence in the whole. -/
theorem hasCore_within {v u : List Char} (h : v <:+: u)
    (hv : hasCore v = true) : hasCore u = true := by
  obtain ⟨p, q2, rfl⟩ := h
  exact hasCore_suffix ⟨p, (List.append_assoc p v q2).symm⟩
    (hasCore_append_left q2 hv)

/-- Stripping removes a (possibly empty) block from each end: the result is
a contiguous fragment of the input. -/
theorem pyStrip_within (v : List Char) : pyStrip v <:+: v := by
  unfold pyStrip
  obtain ⟨p, hp⟩ : ∃ p, p ++ v.dropWhile isPySpace = v :=
    ⟨v.takeWhile isPySpace, List.takeWhile_append_dropWhile _ _⟩
  obtain ⟨q, hq⟩ : ∃ q, q ++ (v.dropWhile isPySpace).reverse.dropWhile
      isPySpace = (v.dropWhile isPySpace).reverse :=
    ⟨_, List.takeWhile_append_dropWhile _ _⟩
  refine ⟨p, q.reverse, ?_⟩
  have h2 := congrArg List.reverse hq
  rw [List.reverse_append, List.reverse_reverse] at h2
  rw [List.append_assoc, h2, hp]

theorem has3_suffix {v u : List Char} (h : v <:+ u) (hv : has3 v = true) :
    has3 u = true := by
  obtain ⟨p, rfl⟩ := h
  induction p with
  | nil => simpa using hv
  | cons a p2 ih =>
    rw [List.cons_append]
    show (decide (a = '\n' ∧ (p2 ++ v).take 2 = ['\n', '\n']) ||
      has3 (p2 ++ v)) = true
    rw [ih, Bool.or_true]

theorem has3_append_left {v : List Char} (q : List Char)
    (hv : has3 v = true) : has3 (v ++ q) = true := by
  induction v with
  | nil => exact absurd hv (by decide)
  | cons c t ih =>
    have hsplit : (decide (c = '\n' ∧ t.take 2 = ['\n', '\n']) ||
      has3 t) = true := hv
    rw [Bool.or_eq_true_iff] at hsplit
    rw [List.cons_append]
    show (decide (c = '\n' ∧ (t ++ q).take 2 = ['\n', '\n']) ||
      has3 (t ++ q)) = true
    rcases hsplit with h1 | h2
    · have hh := of_decide_eq_true h1
      obtain ⟨t2, rfl⟩ := take2_shape hh.2
      rw [decide_eq_true ⟨hh.1, rfl⟩, Bool.true_or]
    · rw [ih h2, Bool.or_true]

theorem has3_within {v u : List Char} (h : v <:+: u) (hv : has3 v = true) :
    has3 u = true := by
  obtain ⟨p, q2, rfl⟩ := h
  exact has3_suffix ⟨p, (List.append_assoc p v q2).symm⟩
    (has3_append_left q2 hv)

theorem collapse_take2 {t : List Char}
    (h : (collapseNewlines t).take 2 = ['\n', '\n']) :
    t.take 2 = ['\n', '\n'] := by
  match t with
  | [] => rw [collapse_nil] at h; simp at h
  | c :: t3 =>
    rw [collapseNewlines_eq] at h
    dsimp only at h
    split at h
    case isTrue hcond =>
      obtain ⟨t4, ht⟩ := take2_shape hcond.2
      rw [hcond.1, ht]
      rfl
    case isFalse hcond =>
      rw [List.take_succ_cons] at h
      rw [List.cons.injEq] at h
      obtain ⟨rfl, h1⟩ := h
      have hh : t3.head? = some '\n' := by
        rw [← collapse_head?]
        cases hc3 : collapseNewlines t3 with
        | nil => rw [hc3] at h1; simp at h1
        | cons d D =>
          rw [hc3] at h1
          rw [List.take_succ_cons] at h1
          simp only [List.take_zero] at h1
          rw [List.cons.injEq] at h1
          rw [List.head?_cons, h1.1]
      cases t3 with
      | nil => simp at hh
      | cons e t4 =>
        simp only [List.head?_cons, Option.some_inj] at hh
        rw [hh]
        rfl

theorem collapse_has3_aux : ∀ (n : Nat) (s : List Char), s.length ≤ n →
    has3 (collapseNewlines s) = false := by
  intro n
  induction n with
  | zero =>
    intro s h
    rw [List.length_eq_zero.mp (Nat.le_zero.mp h), collapse_nil]
    rfl
  | succ k ih =>
    intro s hlen
    rw [collapseNewlines_eq]
    match s with
    | [] => rfl
    | c :: t =>
      simp only [List.length_cons] at hlen
      dsimp only
      split
      case isTrue h =>
        have hle : (t.dropWhile (· = '\n')).length ≤ t.length :=
          (List.dropWhile_sublist _).length_le
        have hC : has3 (collapseNewlines (t.dropWhile (· = '\n'))) = false :=
          ih _ (by omega)
        cases hC0 : collapseNewlines (t.dropWhile (· = '\n')) with
        | nil => decide
        | cons d C2 =>
          have hu : (t.dropWhile (· = '\n')).head? = some d := by
            rw [← collapse_head? (t.dropWhile (· = '\n')), hC0]
            rfl
          have hd : ¬ (d = '\n') := by
            have hp := List.head?_dropWhile_not (fun c => decide (c = '\n')) t
            cases hdw : (t.dropWhile (· = '\n')).head? with
            | none => rw [hdw] at hu; exact absurd hu (by simp)
            | some z =>
              rw [hdw] at hu
              rw [Option.some_inj] at hu
              rw [hdw] at hp
              subst hu
              simpa using hp
          rw [hC0] at hC
          show (decide ('\n' = '\n' ∧ ('\n' :: d :: C2).take 2 =
              ['\n', '\n']) ||
            (decide ('\n' = '\n' ∧ (d :: C2).take 2 = ['\n', '\n']) ||
             has3 (d :: C2))) = false
          rw [hC]
          have e1 : decide ('\n' = '\n' ∧ ('\n' :: d :: C2).take 2 =
              ['\n', '\n']) = false := by
            simp [hd]
          have e2 : decide ('\n' = '\n' ∧ (d :: C2).take 2 =
              ['\n', '\n']) = false := by
            simp [List.take_succ_cons, hd]
          rw [e1, e2]
          rfl
      case isFalse h =>
        have hC : has3 (collapseNewlines t) = false := ih t (by omega)
        show (decide (c = '\n' ∧ (collapseNewlines t).take 2 =
            ['\n', '\n']) || has3 (collapseNewlines t)) = false
        rw [hC, Bool.or_false, decide_eq_false]
        intro hc
        exact h ⟨hc.1, collapse_take2 hc.2⟩

/-- The output of the newline-collapsing substitution never contains three
consecutive newlines. -/
theorem collapse_has3_free (s : List Char) :
    has3 (collapseNewlines s) = false :=
  collapse_has3_aux s.length s (Nat.le_refl _)

theorem collapse_id_aux : ∀ (n : Nat) (s : List Char), s.length ≤ n →
    has3 s = false → collapseNewlines s = s := by
  intro n
  induction n with
  | zero =>
    intro s h _
    rw [List.length_eq_zero.mp (Nat.le_zero.mp h), collapse_nil]
  | succ k ih =>
    intro s hlen h3
    rw [collapseNewlines_eq]
    match s with
    | [] => rfl
    | c :: t =>
      simp only [List.length_cons] at hlen
      have hsplit : (decide (c = '\n' ∧ t.take 2 = ['\n', '\n']) ||
        has3 t) = false := h3
      rw [Bool.or_eq_false_iff] at hsplit
      obtain ⟨h1, h2⟩ := hsplit
      dsimp only
      rw [if_neg (of_decide_eq_false h1)]
      rw [ih t (by omega) h2]

/-- On a string with no three consecutive newlines the collapsing
substitution does nothing. -/
theorem collapse_id_of_not_has3 {s : List Char} (h : has3 s = false) :
    collapseNewlines s = s :=
  collapse_id_aux s.length s (Nat.le_refl _) h

theorem dropWhile_dropWhile (p : Char → Bool) (l : List Char) :
    (l.dropWhile p).dropWhile p = l.dropWhile p := by
  cases hd : l.dropWhile p with
  | nil => rfl
  | cons c t =>
    have hp := List.head?_dropWhile_not p l
    rw [hd] at hp
    exact List.dropWhile_cons_of_neg (by simpa using hp)

/-- `str.strip()` is idempotent. -/
theorem pyStrip_idem (v : List Char) : pyStrip (pyStrip v) = pyStrip v := by
  have hback : (pyStrip v).reverse =
      (v.dropWhile isPySpace).reverse.dropWhile isPySpace := by
    unfold pyStrip
    rw [List.reverse_reverse]
  have hfrontKeep : (pyStrip v).dropWhile isPySpace = pyStrip v := by
    cases hw : pyStrip v with
    | nil => rfl
    | cons c t =>
      have hh : (pyStrip v).head? = some c := by rw [hw]; rfl
      have hgl : ((v.dropWhile isPySpace).reverse.dropWhile
          isPySpace).getLast? = some c := by
        rw [← hback, List.getLast?_reverse]
        exact hh
      have hsuf : (v.dropWhile isPySpace).reverse.dropWhile isPySpace <:+
          (v.dropWhile isPySpace).reverse := List.dropWhile_suffix _
      obtain ⟨pre, hpre⟩ := hsuf
      have hnonnil : (v.dropWhile isPySpace).reverse.dropWhile
          isPySpace ≠ [] := by
        intro he
        rw [he] at hgl
        simp at hgl
      have hgl2 : ((v.dropWhile isPySpace).reverse).getLast? = some c := by
        rw [← hpre, List.getLast?_append]
        cases hglx : ((v.dropWhile isPySpace).reverse.dropWhile
            isPySpace).getLast? with
        | none =>
          rw [hglx] at hgl
          exact absurd hgl (by simp)
        | some z =>
          rw [hglx] at hgl
          rw [Option.or_some]
          exact hgl
      rw [List.getLast?_reverse] at hgl2
      have hcns : isPySpace c = false := by
        have hp := List.head?_dropWhile_not isPySpace v
        cases hdw : (v.dropWhile isPySpace).head? with
        | none => rw [hdw] at hgl2; exact absurd hgl2 (by simp)
        | some z =>
          rw [hdw] at hgl2
          rw [Option.some_inj] at hgl2
          rw [hdw] at hp
          subst hgl2
          exact hp
      exact List.dropWhile_cons_of_neg (by simp [hcns])
  have hstep : pyStrip (pyStrip v) =
      (((pyStrip v).dropWhile isPySpace).reverse.dropWhile
        isPySpace).reverse := rfl
  rw [hstep, hfrontKeep, hback, dropWhile_dropWhile, ← hback,
    List.reverse_reverse]

/-- C1, counterexample to the literal claim: post-processing is not
idempotent.  On `"a\n# b"` one application yields `"a\n\n# b"` (the heading
substitution inserts two newlines before the heading, the final strip keeps
the interior ones); the second application matches the heading again, whose
leading optional `(\n)?` consumes only one of the two newlines, so two more
are inserted and `"a\n\n\n# b"` results. -/
theorem claim_C1_counterexample :
    postProcess (postProcess "a\n# b") ≠ postProcess "a\n# b" := by
  decide

/-- C1 (amended): post-processing is idempotent on every document in which
the heading-core pattern `\#{1,6}\s+[^\n]+` does not occur; on such input
the second application changes nothing (the image rewrite is always the
identity, newline collapsing and heading spacing have nothing left to do,
and stripping is idempotent). -/
theorem claim_C1_amended (s : String) (h : hasCore s.data = false) :
    postProcess (postProcess s) = postProcess s := by
  have key : ∀ t : List Char, hasCore t = false →
      post_process_markdown t = pyStrip (collapseNewlines t) := by
    intro t ht
    have hcol : hasCore (collapseNewlines t) = false := by
      cases hcc : hasCore (collapseNewlines t) with
      | false => rfl
      | true => rw [hasCore_collapse hcc] at ht; exact absurd ht (by simp)
    unfold post_process_markdown
    rw [imageSubAux_id, headingSub_id hcol]
  have h1 : post_process_markdown s.data =
      pyStrip (collapseNewlines s.data) := key _ h
  have hw3 : has3 (pyStrip (collapseNewlines s.data)) = false := by
    cases hcc : has3 (pyStrip (collapseNewlines s.data)) with
    | false => rfl
    | true =>
      have h2 := has3_within (pyStrip_within _) hcc
      rw [collapse_has3_free] at h2
      exact absurd h2 (by simp)
  have hwc : hasCore (pyStrip (collapseNewlines s.data)) = false := by
    cases hcc : hasCore (pyStrip (collapseNewlines s.data)) with
    | false => rfl
    | true =>
      have h2 := hasCore_collapse (hasCore_within (pyStrip_within _) hcc)
      rw [h2] at h
      exact absurd h (by simp)
  have h4 : post_process_markdown (pyStrip (collapseNewlines s.data)) =
      pyStrip (collapseNewlines s.data) := by
    rw [key _ hwc, collapse_id_of_not_has3 hw3, pyStrip_idem]
  have h5 : post_process_markdown (post_process_markdown s.data) =
      post_process_markdown s.data := by
    rw [h1, h4]
  show (⟨post_process_markdown (post_process_markdown s.data)⟩ : String) =
    ⟨post_process_markdown s.data⟩
  exact congrArg String.mk h5

/-- Witness for the amended C1 at a concrete heading-free document. -/
theorem claim_C1_amended_witness :
    hasCore "hello\n\nworld".data = false ∧
      postProcess (postProcess "hello\n\nworld") =
        postProcess "hello\n\nworld" :=
  ⟨by decide, claim_C1_amended "hello\n\nworld" (by decide)⟩

/-! ## Claim C5: heading spacing in the post-processed body -/

/-- Split a character list into its lines (Python `str.split('\n')`). -/
def linesOf : List Char → List (List Char)
  | [] => [[]]
  | c :: t =>
    if c = '\n' then [] :: linesOf t
    else
      match linesOf t with
      | [] => [[c]]
      | l :: ls => (c :: l) :: ls

/-- A line on which the heading core `\#{1,6}\s+[^\n]+` matches at its
start: the spec's "heading line (1 to 6 '#' markers followed by whitespace
and text)". -/
def isHeadingLine (l : List Char) : Bool := (matchCore l).isSome

/-- The adjacency condition "a heading line's neighbour is a blank
line". -/
def lineCond (a b : List Char) : Prop :=
  (isHeadingLine a = true → b = []) ∧ (isHeadingLine b = true → a = [])

/-- Decidable checker for the claim's literal "exactly one blank line
above and below every heading line, boundary trims excepted". -/
def exactSpacing (ls : List (List Char)) : Bool :=
  (List.range ls.length).all fun i =>
    !(isHeadingLine (ls.getD i [])) ||
    ((decide (i = 0) ||
        (decide (ls.getD (i - 1) [] = []) &&
         (decide (i = 1) || !(decide (ls.getD (i - 2) [] = []))))) &&
     (decide (i + 1 = ls.length) ||
        (decide (ls.getD (i + 1) [] = []) &&
         (decide (i + 2 = ls.length) ||
          !(decide (ls.getD (i + 2) [] = []))))))

/-- No `'#'` and no non-newline whitespace character immediately before a
newline.  Under this condition every matched heading core stays on a
single line. -/
def pairOk : List Char → Bool
  | [] => true
  | [_] => true
  | a :: b :: t =>
    (!(decide (b = '\n')) ||
      (!(decide (a = '#')) && (!(isPySpace a) || decide (a = '\n')))) &&
    pairOk (b :: t)

/-- The effect of `dropWhile isPySpace` on the line split: drop the
leading all-whitespace lines, left-strip the first remaining line. -/
def stripFrontLines : List (List Char) → List (List Char)
  | [] => [[]]
  | [l] => [l.dropWhile isPySpace]
  | l :: l2 :: ls =>
    if l.dropWhile isPySpace = [] then stripFrontLines (l2 :: ls)
    else (l.dropWhile isPySpace) :: l2 :: ls

theorem isHeadingLine_nil : isHeadingLine [] = false := rfl

theorem linesOf_ne_nil (s : List Char) : linesOf s ≠ [] := by
  match s with
  | [] => simp [linesOf]
  | c :: t =>
    show (if c = '\n' then [] :: linesOf t
      else match linesOf t with
      | [] => [[c]]
      | l :: ls => (c :: l) :: ls) ≠ []
    split
    · simp
    · split <;> simp

theorem linesOf_cons_nl (t : List Char) :
    linesOf ('\n' :: t) = [] :: linesOf t := by
  show (if '\n' = '\n' then [] :: linesOf t else _) = [] :: linesOf t
  rw [if_pos rfl]

theorem linesOf_cons_ne {c : Char} (t : List Char) (h : ¬ (c = '\n')) :
    ∃ l ls, linesOf t = l :: ls ∧ linesOf (c :: t) = (c :: l) :: ls := by
  cases hl : linesOf t with
  | nil => exact absurd hl (linesOf_ne_nil t)
  | cons l ls =>
    refine ⟨l, ls, rfl, ?_⟩
    show (if c = '\n' then [] :: linesOf t
      else match linesOf t with
      | [] => [[c]]
      | l :: ls => (c :: l) :: ls) = (c :: l) :: ls
    rw [if_neg h, hl]

theorem linesOf_append_no_nl (x y : List Char) (hx : ∀ c ∈ x, c ≠ '\n') :
    ∃ l ls, linesOf y = l :: ls ∧ linesOf (x ++ y) = (x ++ l) :: ls := by
  induction x with
  | nil =>
    cases hl : linesOf y with
    | nil => exact absurd hl (linesOf_ne_nil y)
    | cons l ls => exact ⟨l, ls, rfl, by simpa using hl⟩
  | cons c x2 ih =>
    obtain ⟨l, ls, h1, h2⟩ := ih (fun d hd => hx d (List.mem_cons_of_mem _ hd))
    refine ⟨l, ls, h1, ?_⟩
    rw [List.cons_append]
    obtain ⟨l2, ls2, h3, h4⟩ :=
      linesOf_cons_ne (x2 ++ y) (hx c (List.mem_cons_self _ _))
    have h5 := h2.symm.trans h3
    rw [List.cons.injEq] at h5
    rw [h4, ← h5.1, ← h5.2, List.cons_append]

theorem linesOf_concat_nl (z : List Char) :
    linesOf (z ++ ['\n']) = linesOf z ++ [[]] := by
  induction z with
  | nil => rfl
  | cons c t ih =>
    by_cases h : c = '\n'
    · subst h
      rw [List.cons_append, linesOf_cons_nl, linesOf_cons_nl, ih,
        List.cons_append]
    · obtain ⟨l, ls, h1, h2⟩ := linesOf_cons_ne t h
      obtain ⟨l2, ls2, h3, h4⟩ := linesOf_cons_ne (t ++ ['\n']) h
      rw [ih, h1, List.cons_append] at h3
      rw [List.cons.injEq] at h3
      rw [List.cons_append, h4, ← h3.1, ← h3.2, h2, List.cons_append]

theorem linesOf_concat_ne (z : List Char) (c : Char) (h : ¬ (c = '\n')) :
    ∃ M lastL, linesOf z = M ++ [lastL] ∧
      linesOf (z ++ [c]) = M ++ [lastL ++ [c]] := by
  induction z with
  | nil =>
    refine ⟨[], [], rfl, ?_⟩
    obtain ⟨l, ls, h1, h2⟩ := linesOf_cons_ne [] h
    simp only [linesOf] at h1
    rw [List.cons.injEq] at h1
    simp only [List.nil_append]
    rw [h2, ← h1.1, ← h1.2]
  | cons d t ih =>
    obtain ⟨M, lastL, h1, h2⟩ := ih
    by_cases hd : d = '\n'
    · subst hd
      refine ⟨[] :: M, lastL, ?_, ?_⟩
      · rw [linesOf_cons_nl, h1, List.cons_append]
      · rw [List.cons_append, linesOf_cons_nl, h2, List.cons_append]
    · obtain ⟨l, ls, h3, h4⟩ := linesOf_cons_ne t hd
      obtain ⟨l5, ls5, h5, h6⟩ := linesOf_cons_ne (t ++ [c]) hd
      cases M with
      | nil =>
        rw [h1, List.nil_append] at h3
        rw [List.cons.injEq] at h3
        rw [h2, List.nil_append] at h5
        rw [List.cons.injEq] at h5
        refine ⟨[], d :: lastL, ?_, ?_⟩
        · rw [h4, ← h3.1, ← h3.2, List.nil_append]
        · rw [List.cons_append, h6, ← h5.1, ← h5.2, List.nil_append,
            List.cons_append]
      | cons m0 M2 =>
        rw [h1, List.cons_append] at h3
        rw [List.cons.injEq] at h3
        rw [h2, List.cons_append] at h5
        rw [List.cons.injEq] at h5
        refine ⟨(d :: m0) :: M2, lastL, ?_, ?_⟩
        · rw [h4, ← h3.1, ← h3.2, List.cons_append]
        · rw [List.cons_append, h6, ← h5.1, ← h5.2, List.cons_append]

theorem linesOf_reverse (s : List Char) :
    linesOf s.reverse = ((linesOf s).map List.reverse).reverse := by
  induction s with
  | nil => rfl
  | cons c t ih =>
    rw [List.reverse_cons]
    by_cases h : c = '\n'
    · subst h
      rw [linesOf_concat_nl, ih, linesOf_cons_nl, List.map_cons,
        List.reverse_cons]
      rfl
    · obtain ⟨M, lastL, h1, h2⟩ := linesOf_concat_ne t.reverse c h
      obtain ⟨l, ls, h3, h4⟩ := linesOf_cons_ne t h
      rw [h3, List.map_cons, List.reverse_cons] at ih
      have h5 := h1.symm.trans ih
      obtain ⟨hM, hl⟩ := List.append_inj' h5 rfl
      rw [List.cons.injEq] at hl
      rw [h2, h4, List.map_cons, List.reverse_cons, hM, hl.1,
        List.reverse_cons]

theorem linesOf_dropWhile (u : List Char) :
    linesOf (u.dropWhile isPySpace) = stripFrontLines (linesOf u) := by
  induction u with
  | nil => rfl
  | cons c t ih =>
    by_cases hws : isPySpace c = true
    · rw [List.dropWhile_cons_of_pos hws]
      by_cases hnl : c = '\n'
      · subst hnl
        rw [linesOf_cons_nl]
        cases hl : linesOf t with
        | nil => exact absurd hl (linesOf_ne_nil t)
        | cons l ls =>
          rw [ih, hl]
          show stripFrontLines (l :: ls) = stripFrontLines ([] :: l :: ls)
          rw [show stripFrontLines ([] :: l :: ls) =
            if ([] : List Char).dropWhile isPySpace = [] then
              stripFrontLines (l :: ls)
            else (([] : List Char).dropWhile isPySpace) :: l :: ls from rfl]
          rw [List.dropWhile_nil, if_pos rfl]
      · obtain ⟨l, ls, h1, h2⟩ := linesOf_cons_ne t hnl
        rw [h2, ih, h1]
        have hdw : (c :: l).dropWhile isPySpace = l.dropWhile isPySpace :=
          List.dropWhile_cons_of_pos hws
        cases ls with
        | nil =>
          show stripFrontLines [l] = stripFrontLines [c :: l]
          show [l.dropWhile isPySpace] = [(c :: l).dropWhile isPySpace]
          rw [hdw]
        | cons l2 ls2 =>
          show stripFrontLines (l :: l2 :: ls2) =
            stripFrontLines ((c :: l) :: l2 :: ls2)
          rw [show stripFrontLines ((c :: l) :: l2 :: ls2) =
            if (c :: l).dropWhile isPySpace = [] then
              stripFrontLines (l2 :: ls2)
            else ((c :: l).dropWhile isPySpace) :: l2 :: ls2 from rfl]
          rw [show stripFrontLines (l :: l2 :: ls2) =
            if l.dropWhile isPySpace = [] then stripFrontLines (l2 :: ls2)
            else (l.dropWhile isPySpace) :: l2 :: ls2 from rfl]
          rw [hdw]
    · rw [List.dropWhile_cons_of_neg hws]
      have hnl : ¬ (c = '\n') := fun he => hws (by rw [he]; decide)
      obtain ⟨l, ls, h1, h2⟩ := linesOf_cons_ne t hnl
      rw [h2]
      have hdw : (c :: l).dropWhile isPySpace = c :: l :=
        List.dropWhile_cons_of_neg hws
      cases ls with
      | nil =>
        show (c :: l) :: ([] : List (List Char)) =
          [(c :: l).dropWhile isPySpace]
        rw [hdw]
      | cons l2 ls2 =>
        rw [show stripFrontLines ((c :: l) :: l2 :: ls2) =
          if (c :: l).dropWhile isPySpace = [] then
            stripFrontLines (l2 :: ls2)
          else ((c :: l).dropWhile isPySpace) :: l2 :: ls2 from rfl]
        rw [hdw, if_neg (by simp)]

theorem pairOk_cons {a b : Char} {t : List Char}
    (h : pairOk (a :: b :: t) = true) :
    pairOk (b :: t) = true ∧
      (b = '\n' → ¬ (a = '#') ∧ (isPySpace a = true → a = '\n')) := by
  have h2 : ((!(decide (b = '\n')) ||
      (!(decide (a = '#')) && (!(isPySpace a) || decide (a = '\n')))) &&
    pairOk (b :: t)) = true := h
  rw [Bool.and_eq_true] at h2
  refine ⟨h2.2, ?_⟩
  intro hb
  have h3 := h2.1
  rw [hb] at h3
  have h4 : ((!(isPySpace a)) || decide (a = '\n')) = true ∧
      (!(decide (a = '#'))) = true := by
    rcases Bool.or_eq_true_iff.mp h3 with hx | hx
    · exfalso
      simp at hx
    · rw [Bool.and_eq_true] at hx
      exact ⟨hx.2, hx.1⟩
  refine ⟨?_, ?_⟩
  · intro ha
    have h5 := h4.2
    rw [ha] at h5
    simp at h5
  · intro hws
    rcases Bool.or_eq_true_iff.mp h4.1 with hy | hy
    · rw [hws] at hy
      simp at hy
    · simpa using hy

theorem pairOk_tail {c : Char} {t : List Char}
    (h : pairOk (c :: t) = true) : pairOk t = true := by
  cases t with
  | nil => rfl
  | cons b t2 => exact (pairOk_cons h).1

theorem pairOk_suffix {v u : List Char} (h : v <:+ u)
    (hp : pairOk u = true) : pairOk v = true := by
  obtain ⟨p, rfl⟩ := h
  induction p with
  | nil => simpa using hp
  | cons a p2 ih =>
    rw [List.cons_append] at hp
    exact ih (pairOk_tail hp)

theorem pairOk_adj {w x y : List Char} {a : Char} (hp : pairOk w = true)
    (hw : w = x ++ a :: '\n' :: y) :
    ¬ (a = '#') ∧ (isPySpace a = true → a = '\n') := by
  have hsuf : pairOk (a :: '\n' :: y) = true :=
    pairOk_suffix ⟨x, hw.symm⟩ hp
  exact (pairOk_cons hsuf).2 rfl

theorem pairOk_ws_no_nl {hs p z : List Char} (w : List Char)
    (hw : w = hs ++ p ++ z) (hp : pairOk w = true)
    (hhs : hs ≠ []) (hhash : ∀ c ∈ hs, c = '#')
    (hws : ∀ c ∈ p, isPySpace c = true) :
    ∀ x ∈ p, x ≠ '\n' := by
  intro x hx hnl
  subst hnl
  have hd : p.dropWhile (· ≠ '\n') ≠ [] := by
    intro he
    have h2 := List.dropWhile_eq_nil_iff.mp he '\n' hx
    simp at h2
  cases hdd : p.dropWhile (· ≠ '\n') with
  | nil => exact hd hdd
  | cons d r =>
    have hdnl : d = '\n' := by
      have h3 := List.head?_dropWhile_not
        (fun c => decide (¬ (c = '\n'))) p
      rw [hdd] at h3
      simpa using h3
    subst hdnl
    have hsplit : p = p.takeWhile (· ≠ '\n') ++ '\n' :: r := by
      conv_lhs => rw [← List.takeWhile_append_dropWhile
        (fun c => decide (¬ (c = '\n'))) p]
      rw [hdd]
    rcases List.eq_nil_or_concat (p.takeWhile (· ≠ '\n')) with hq |
      ⟨qq, a, hq⟩
    all_goals try rw [List.concat_eq_append] at hq
    · rw [hq, List.nil_append] at hsplit
      rcases List.eq_nil_or_concat hs with hh | ⟨hh2, b, hh⟩
      · exact hhs hh
      · rw [List.concat_eq_append] at hh
        have hb : b = '#' := hhash b
          (by rw [hh]; exact List.mem_append_right _ (List.mem_singleton_self _))
        subst hb
        have hw2 : w = hh2 ++ '#' :: '\n' :: (r ++ z) := by
          rw [hw, hh, hsplit]
          simp [List.append_assoc]
        exact (pairOk_adj hp hw2).1 rfl
    · have haP : a ∈ p := by
        rw [hsplit, hq]
        exact List.mem_append_left _
          (List.mem_append_right _ (List.mem_singleton_self _))
      have hawS : isPySpace a = true := hws a haP
      have hanl : ¬ (a = '\n') := by
        have h4 := List.mem_takeWhile_imp
          (show a ∈ p.takeWhile (· ≠ '\n') from by
            rw [hq]; exact List.mem_append_right _ (List.mem_singleton_self _))
        simpa using h4
      have hw2 : w = (hs ++ qq) ++ a :: '\n' :: (r ++ z) := by
        rw [hw, hsplit, hq]
        simp [List.append_assoc]
      exact hanl ((pairOk_adj hp hw2).2 hawS)

theorem matchCore_core_no_nl {w core rest : List Char}
    (hp : pairOk w = true) (h : matchCore w = some (core, rest)) :
    ∀ x ∈ core, x ≠ '\n' := by
  have hhash : ∀ c ∈ w.takeWhile (· = '#'), c = '#' := by
    intro c hc
    simpa using List.mem_takeWhile_imp hc
  unfold matchCore at h
  dsimp only at h
  split at h
  case isFalse => exact absurd h (by simp)
  case isTrue ha =>
  have hhs : w.takeWhile (· = '#') ≠ [] := by
    intro he
    have h1 := ha.1
    rw [he] at h1
    simp at h1
  split at h
  case isTrue => exact absurd h (by simp)
  case isFalse hwz =>
  split at h
  case isTrue hlt =>
    rw [Option.some_inj, Prod.mk.injEq] at h
    obtain ⟨hc, hr⟩ := h
    subst hc
    intro x hx
    rcases List.mem_append.mp hx with hx1 | hx2
    · rcases List.mem_append.mp hx1 with hxa | hxb
      · rw [hhash x hxa]; decide
      · have hw1 : w = w.takeWhile (· = '#') ++
            (w.dropWhile (· = '#')).takeWhile isPySpace ++
            (w.dropWhile (· = '#')).dropWhile isPySpace := by
          rw [List.append_assoc, List.takeWhile_append_dropWhile,
            List.takeWhile_append_dropWhile]
        refine pairOk_ws_no_nl w hw1 hp hhs hhash ?_ x hxb
        intro c hc
        exact List.mem_takeWhile_imp hc
    · have h5 := List.mem_takeWhile_imp hx2
      simpa using h5
  case isFalse hge =>
  split at h
  case isFalse => exact absurd h (by simp)
  case isTrue hk =>
    rw [Option.some_inj, Prod.mk.injEq] at h
    obtain ⟨hc, hr⟩ := h
    subst hc
    have huws : ∀ c ∈ w.dropWhile (· = '#'), isPySpace c = true := by
      have hlen : (w.dropWhile (· = '#')).length ≤
          ((w.dropWhile (· = '#')).takeWhile isPySpace).length := by
        omega
      have heq : (w.dropWhile (· = '#')).takeWhile isPySpace =
          w.dropWhile (· = '#') :=
        (List.takeWhile_sublist _).eq_of_length
          (Nat.le_antisymm (List.takeWhile_sublist _).length_le hlen)
      exact fun c hc => List.mem_takeWhile_imp (heq ▸ hc)
    intro x hx
    rcases List.mem_append.mp hx with hx1 | hx2
    · rw [hhash x hx1]; decide
    · have hw2 : w = w.takeWhile (· = '#') ++
          (w.dropWhile (· = '#')).take ((w.dropWhile (· = '#')).length -
            ((w.dropWhile (· = '#')).reverse.takeWhile
              (· = '\n')).length) ++
          (w.dropWhile (· = '#')).drop ((w.dropWhile (· = '#')).length -
            ((w.dropWhile (· = '#')).reverse.takeWhile
              (· = '\n')).length) := by
        rw [List.append_assoc, List.take_append_drop,
          List.takeWhile_append_dropWhile]
      refine pairOk_ws_no_nl w hw2 hp hhs hhash ?_ x hx2
      intro c hc
      exact huws c ((List.take_sublist _ _).subset hc)

theorem matchCore_core_hash {w core rest : List Char}
    (h : matchCore w = some (core, rest)) : ∃ cs, core = '#' :: cs := by
  unfold matchCore at h
  dsimp only at h
  split at h
  case isFalse => exact absurd h (by simp)
  case isTrue ha =>
  cases hhs : w.takeWhile (· = '#') with
  | nil =>
    have h1 := ha.1
    rw [hhs] at h1
    simp at h1
  | cons c cs0 =>
    have hc : c = '#' := by
      have h2 : c ∈ w.takeWhile (· = '#') := by
        rw [hhs]; exact List.mem_cons_self _ _
      simpa using List.mem_takeWhile_imp h2
    subst hc
    split at h
    case isTrue => exact absurd h (by simp)
    case isFalse hwz =>
    split at h
    case isTrue hlt =>
      rw [Option.some_inj, Prod.mk.injEq] at h
      obtain ⟨hcc, hr⟩ := h
      subst hcc
      rw [hhs]
      exact ⟨_, by rw [List.cons_append, List.cons_append]⟩
    case isFalse hge =>
    split at h
    case isFalse => exact absurd h (by simp)
    case isTrue hk =>
      rw [Option.some_inj, Prod.mk.injEq] at h
      obtain ⟨hcc, hr⟩ := h
      subst hcc
      rw [hhs]
      exact ⟨_, by rw [List.cons_append]⟩

theorem dropTrailNl_suffix (r : List Char) : dropTrailNl r <:+ r := by
  unfold dropTrailNl
  split
  · exact List.tail_suffix r
  · exact List.suffix_refl r

theorem matchHeading_rest_suffix {v core rest : List Char}
    (h : matchHeading v = some (core, rest)) : rest <:+ v := by
  unfold matchHeading at h
  split at h
  case _ => exact absurd h (by simp)
  case _ c t =>
    split at h
    · split at h
      case _ core0 rest0 heq =>
        rw [Option.some_inj, Prod.mk.injEq] at h
        obtain ⟨hc, hr⟩ := h
        subst hc hr
        have h1 : rest0 <:+ t := ⟨core0, (matchCore_eq heq).1.symm⟩
        exact ((dropTrailNl_suffix rest0).trans h1).trans ⟨[c], rfl⟩
      case _ => exact absurd h (by simp)
    · split at h
      case _ core0 rest0 heq =>
        rw [Option.some_inj, Prod.mk.injEq] at h
        obtain ⟨hc, hr⟩ := h
        subst hc hr
        have h1 : rest0 <:+ c :: t := ⟨core0, (matchCore_eq heq).1.symm⟩
        exact (dropTrailNl_suffix rest0).trans h1
      case _ => exact absurd h (by simp)

theorem matchHeading_core_no_nl {v core rest : List Char}
    (hp : pairOk v = true) (h : matchHeading v = some (core, rest)) :
    ∀ x ∈ core, x ≠ '\n' := by
  unfold matchHeading at h
  split at h
  case _ => exact absurd h (by simp)
  case _ c t =>
    split at h
    · split at h
      case _ core0 rest0 heq =>
        rw [Option.some_inj, Prod.mk.injEq] at h
        obtain ⟨hc, hr⟩ := h
        subst hc
        exact matchCore_core_no_nl (pairOk_tail hp) heq
      case _ => exact absurd h (by simp)
    · split at h
      case _ core0 rest0 heq =>
        rw [Option.some_inj, Prod.mk.injEq] at h
        obtain ⟨hc, hr⟩ := h
        subst hc
        exact matchCore_core_no_nl hp heq
      case _ => exact absurd h (by simp)

theorem matchHeading_core_hash {v core rest : List Char}
    (h : matchHeading v = some (core, rest)) : ∃ cs, core = '#' :: cs := by
  unfold matchHeading at h
  split at h
  case _ => exact absurd h (by simp)
  case _ c t =>
    split at h
    · split at h
      case _ core0 rest0 heq =>
        rw [Option.some_inj, Prod.mk.injEq] at h
        obtain ⟨hc, hr⟩ := h
        subst hc
        exact matchCore_core_hash heq
      case _ => exact absurd h (by simp)
    · split at h
      case _ core0 rest0 heq =>
        rw [Option.some_inj, Prod.mk.injEq] at h
        obtain ⟨hc, hr⟩ := h
        subst hc
        exact matchCore_core_hash heq
      case _ => exact absurd h (by simp)

theorem lineCond_nil_left (b : List Char) : lineCond [] b :=
  ⟨fun h => absurd h (by rw [isHeadingLine_nil]; simp), fun _ => rfl⟩

theorem lineCond_nil_right (a : List Char) : lineCond a [] :=
  ⟨fun _ => rfl, fun h => absurd h (by rw [isHeadingLine_nil]; simp)⟩

theorem matchHeading_nl_none {t : List Char}
    (h : matchHeading ('\n' :: t) = none) : matchCore t = none := by
  unfold matchHeading at h
  dsimp only at h
  rw [if_pos rfl] at h
  cases hmc : matchCore t with
  | none => rfl
  | some v =>
    obtain ⟨core, rest⟩ := v
    rw [hmc] at h
    dsimp only at h
    exact absurd h (by simp)

theorem matchHeading_ne_none {c : Char} {t : List Char} (hc : ¬ (c = '\n'))
    (h : matchHeading (c :: t) = none) : matchCore (c :: t) = none := by
  unfold matchHeading at h
  dsimp only at h
  rw [if_neg hc] at h
  cases hmc : matchCore (c :: t) with
  | none => rfl
  | some v =>
    obtain ⟨core, rest⟩ := v
    rw [hmc] at h
    dsimp only at h
    exact absurd h (by simp)

theorem dropWhile_eq_drop_ex (p : Char → Bool) (l : List Char) :
    ∃ j, l.dropWhile p = l.drop j := by
  refine ⟨(l.takeWhile p).length, ?_⟩
  calc l.dropWhile p
      = (l.takeWhile p ++ l.dropWhile p).drop (l.takeWhile p).length :=
        (List.drop_left _ _).symm
    _ = l.drop (l.takeWhile p).length := by
        rw [List.takeWhile_append_dropWhile]

/-- The first line of the heading-substituted string is copied text: it is
a prefix of the scanned string. -/
theorem headingSub_headline (v : List Char) :
    ∃ l ls q, linesOf (headingSubAux v) = l :: ls ∧ v = l ++ q := by
  induction v with
  | nil =>
    refine ⟨[], [], [], ?_, rfl⟩
    rw [show headingSubAux [] = [] from rfl]
    rfl
  | cons c t ih =>
    rw [headingSubAux_eq]
    dsimp only
    cases hm : matchHeading (c :: t) with
    | some v2 =>
      obtain ⟨core, rest⟩ := v2
      dsimp only
      rw [linesOf_cons_nl]
      exact ⟨[], _, c :: t, rfl, rfl⟩
    | none =>
      by_cases hc : c = '\n'
      · subst hc
        rw [linesOf_cons_nl]
        exact ⟨[], _, '\n' :: t, rfl, rfl⟩
      · obtain ⟨l, ls, h1, h2⟩ := linesOf_cons_ne (headingSubAux t) hc
        obtain ⟨l0, ls0, q0, h3, h4⟩ := ih
        have h5 := h1.symm.trans h3
        rw [List.cons.injEq] at h5
        rw [h2]
        refine ⟨c :: l, ls, q0, rfl, ?_⟩
        rw [h4, h5.1, List.cons_append]

theorem headingSub_good_nil :
    List.Chain' lineCond (linesOf (headingSubAux [])) ∧
    (∀ l ∈ linesOf (headingSubAux []),
      isHeadingLine (l.dropWhile isPySpace) = true →
        isHeadingLine l = true) ∧
    (∀ j, isHeadingLine
      (((linesOf (headingSubAux [])).headD []).drop j) = false) ∧
    (∀ l2 ls2, linesOf (headingSubAux []) = [] :: l2 :: ls2 →
      isHeadingLine l2 = false) := by
  rw [show linesOf (headingSubAux []) = [[]] from rfl]
  refine ⟨List.chain'_singleton _, ?_, ?_, ?_⟩
  · intro l hl hH
    rw [List.mem_singleton] at hl
    subst hl
    exact absurd hH (by rw [List.dropWhile_nil, isHeadingLine_nil]; simp)
  · intro j
    show isHeadingLine (([] : List Char).drop j) = false
    rw [List.drop_nil]
    rfl
  · intro l2 ls2 he
    exact absurd he (by simp)

/-- The heart of the heading-spacing argument.  For a scanned string whose
heading cores are single-line (`pairOk`), the substituted string satisfies:
(a) adjacent lines obey `lineCond` (a heading line's neighbours are blank);
(b) a line that left-strips to a heading line is one already;
(c) no suffix of the first line is a heading line;
(d) if the string starts with a blank line, the following line is not a
heading line. -/
theorem headingSub_good : ∀ (n : Nat) (v : List Char), v.length ≤ n →
    pairOk v = true →
    List.Chain' lineCond (linesOf (headingSubAux v)) ∧
    (∀ l ∈ linesOf (headingSubAux v),
      isHeadingLine (l.dropWhile isPySpace) = true →
        isHeadingLine l = true) ∧
    (∀ j, isHeadingLine
      (((linesOf (headingSubAux v)).headD []).drop j) = false) ∧
    (∀ l2 ls2, linesOf (headingSubAux v) = [] :: l2 :: ls2 →
      isHeadingLine l2 = false) := by
  intro n
  induction n with
  | zero =>
    intro v hlen _
    rw [List.length_eq_zero.mp (Nat.le_zero.mp hlen)]
    exact headingSub_good_nil
  | succ k ih =>
    intro v hlen hp
    match v with
    | [] => exact headingSub_good_nil
    | c :: t =>
      simp only [List.length_cons] at hlen
      have hW := headingSubAux_eq (c :: t)
      cases hm : matchHeading (c :: t) with
      | some v2 =>
        obtain ⟨core, rest⟩ := v2
        dsimp only at hW
        rw [hm] at hW
        dsimp only at hW
        have hnl : ∀ x ∈ core, x ≠ '\n' := matchHeading_core_no_nl hp hm
        obtain ⟨cs, hcs⟩ := matchHeading_core_hash hm
        have hsu : rest <:+ c :: t := matchHeading_rest_suffix hm
        have hpr : pairOk rest = true := pairOk_suffix hsu hp
        have hrl : rest.length < t.length + 1 := by
          have h0 := matchHeading_rest_lt hm
          simpa using h0
        obtain ⟨aR, bR, cR, dR⟩ := ih rest (by omega) hpr
        obtain ⟨lA, lsA, hA1, hA2⟩ :=
          linesOf_append_no_nl core ('\n' :: '\n' :: headingSubAux rest) hnl
        have h6 : lA = [] ∧ lsA = [] :: linesOf (headingSubAux rest) := by
          rw [linesOf_cons_nl, linesOf_cons_nl] at hA1
          rw [List.cons.injEq] at hA1
          exact ⟨hA1.1.symm, hA1.2.symm⟩
        have hLines : linesOf (headingSubAux (c :: t)) =
            [] :: [] :: core :: [] :: linesOf (headingSubAux rest) := by
          rw [hW, linesOf_cons_nl, linesOf_cons_nl, hA2, h6.1, h6.2,
            List.append_nil]
        rw [hLines]
        refine ⟨?_, ?_, ?_, ?_⟩
        · rw [List.chain'_cons]
          refine ⟨lineCond_nil_left _, ?_⟩
          rw [List.chain'_cons]
          refine ⟨lineCond_nil_left _, ?_⟩
          rw [List.chain'_cons]
          refine ⟨lineCond_nil_right _, ?_⟩
          rw [List.chain'_cons']
          exact ⟨fun y _ => lineCond_nil_left _, aR⟩
        · intro l hl hH
          rw [List.mem_cons] at hl
          rcases hl with rfl | hl
          · exact absurd hH
              (by rw [List.dropWhile_nil, isHeadingLine_nil]; simp)
          rw [List.mem_cons] at hl
          rcases hl with rfl | hl
          · exact absurd hH
              (by rw [List.dropWhile_nil, isHeadingLine_nil]; simp)
          rw [List.mem_cons] at hl
          rcases hl with rfl | hl
          · rw [hcs] at hH ⊢
            rw [List.dropWhile_cons_of_neg (by decide)] at hH
            exact hH
          rw [List.mem_cons] at hl
          rcases hl with rfl | hl
          · exact absurd hH
              (by rw [List.dropWhile_nil, isHeadingLine_nil]; simp)
          · exact bR l hl hH
        · intro j
          show isHeadingLine (([] : List Char).drop j) = false
          rw [List.drop_nil]
          rfl
        · intro l2 ls2 he
          rw [List.cons.injEq, List.cons.injEq] at he
          rw [← he.2.1]
          rfl
      | none =>
        have hpt : pairOk t = true := pairOk_tail hp
        obtain ⟨aT, bT, cT, dT⟩ := ih t (by omega) hpt
        dsimp only at hW
        rw [hm] at hW
        dsimp only at hW
        by_cases hc : c = '\n'
        · subst hc
          have hLines : linesOf (headingSubAux ('\n' :: t)) =
              [] :: linesOf (headingSubAux t) := by
            rw [hW, linesOf_cons_nl]
          rw [hLines]
          refine ⟨?_, ?_, ?_, ?_⟩
          · rw [List.chain'_cons']
            exact ⟨fun y _ => lineCond_nil_left _, aT⟩
          · intro l hl hH
            rw [List.mem_cons] at hl
            rcases hl with rfl | hl
            · exact absurd hH
                (by rw [List.dropWhile_nil, isHeadingLine_nil]; simp)
            · exact bT l hl hH
          · intro j
            show isHeadingLine (([] : List Char).drop j) = false
            rw [List.drop_nil]
            rfl
          · intro l2 ls2 he
            rw [List.cons.injEq] at he
            obtain ⟨l0, ls0, q0, h3, h4⟩ := headingSub_headline t
            have h5 := h3.symm.trans he.2
            rw [List.cons.injEq] at h5
            cases hH : isHeadingLine l2 with
            | false => rfl
            | true =>
              exfalso
              have hH2 : (matchCore l2).isSome = true := hH
              have hmc : (matchCore (l2 ++ q0)).isSome = true :=
                matchCore_extend q0 hH2
              have h7 : t = l2 ++ q0 := by rw [h4, h5.1]
              rw [← h7, matchHeading_nl_none hm] at hmc
              simp at hmc
        · obtain ⟨lt, lst, h1, h2⟩ := linesOf_cons_ne (headingSubAux t) hc
          have hLines : linesOf (headingSubAux (c :: t)) =
              (c :: lt) :: lst := by rw [hW, h2]
          obtain ⟨l0, ls0, q0, h3, h4⟩ := headingSub_headline t
          have h5 := h1.symm.trans h3
          rw [List.cons.injEq] at h5
          have hHead : isHeadingLine (c :: lt) = false := by
            cases hH : isHeadingLine (c :: lt) with
            | false => rfl
            | true =>
              exfalso
              have hH2 : (matchCore (c :: lt)).isSome = true := hH
              have hmc : (matchCore ((c :: lt) ++ q0)).isSome = true :=
                matchCore_extend q0 hH2
              have h7 : c :: t = (c :: lt) ++ q0 := by
                rw [List.cons_append, h4, h5.1]
              rw [← h7, matchHeading_ne_none hc hm] at hmc
              simp at hmc
          rw [hLines]
          refine ⟨?_, ?_, ?_, ?_⟩
          · rw [List.chain'_cons']
            constructor
            · intro y hy
              cases lst with
              | nil => simp at hy
              | cons y0 lst2 =>
                have hy2 : y0 = y := by simpa using hy
                subst hy2
                constructor
                · intro hCH
                  rw [hHead] at hCH
                  exact absurd hCH (by simp)
                · intro hHy
                  exfalso
                  rw [h1, List.chain'_cons] at aT
                  have h8 := aT.1.2 hHy
                  have h9 := dT y0 lst2 (by rw [h1, h8])
                  rw [hHy] at h9
                  exact absurd h9 (by simp)
            · rw [h1] at aT
              exact aT.tail
          · intro l hl hH
            rw [List.mem_cons] at hl
            rcases hl with rfl | hl
            · by_cases hws : isPySpace c = true
              · exfalso
                rw [List.dropWhile_cons_of_pos hws] at hH
                obtain ⟨j, hj⟩ := dropWhile_eq_drop_ex isPySpace lt
                rw [hj] at hH
                have h8 := cT j
                rw [h1, List.headD_cons] at h8
                rw [hH] at h8
                exact absurd h8 (by simp)
              · rw [List.dropWhile_cons_of_neg hws] at hH
                exact hH
            · exact bT l (by rw [h1]; exact List.mem_cons_of_mem _ hl) hH
          · intro j
            rw [List.headD_cons]
            cases j with
            | zero => rw [List.drop_zero]; exact hHead
            | succ j2 =>
              rw [List.drop_succ_cons]
              have h8 := cT j2
              rw [h1, List.headD_cons] at h8
              exact h8
          · intro l2 ls2 he
            rw [List.cons.injEq] at he
            exact absurd he.1 (by simp)

theorem pairOk_build {a b : Char} {t : List Char}
    (h1 : b = '\n' → ¬ (a = '#') ∧ (isPySpace a = true → a = '\n'))
    (h2 : pairOk (b :: t) = true) : pairOk (a :: b :: t) = true := by
  show ((!(decide (b = '\n')) ||
      (!(decide (a = '#')) && (!(isPySpace a) || decide (a = '\n')))) &&
    pairOk (b :: t)) = true
  rw [Bool.and_eq_true]
  refine ⟨?_, h2⟩
  by_cases hb : b = '\n'
  · obtain ⟨ha1, ha2⟩ := h1 hb
    rw [Bool.or_eq_true_iff]
    right
    rw [Bool.and_eq_true]
    refine ⟨by simp [ha1], ?_⟩
    cases hws : isPySpace a with
    | false => simp
    | true =>
      rw [Bool.or_eq_true_iff]
      right
      simp [ha2 hws]
  · rw [Bool.or_eq_true_iff]
    left
    simp [hb]

theorem pairOk_collapse_aux : ∀ (n : Nat) (s : List Char), s.length ≤ n →
    pairOk s = true → pairOk (collapseNewlines s) = true := by
  intro n
  induction n with
  | zero =>
    intro s hlen _
    rw [List.length_eq_zero.mp (Nat.le_zero.mp hlen), collapse_nil]
    rfl
  | succ k ih =>
    intro s hlen hp
    rw [collapseNewlines_eq]
    match s with
    | [] => rfl
    | c :: t =>
      simp only [List.length_cons] at hlen
      dsimp only
      split
      case isTrue h =>
        have hle : (t.dropWhile (· = '\n')).length ≤ t.length :=
          (List.dropWhile_sublist _).length_le
        have hpd : pairOk (t.dropWhile (· = '\n')) = true :=
          pairOk_suffix (List.dropWhile_suffix _) (pairOk_tail hp)
        have hC : pairOk (collapseNewlines (t.dropWhile (· = '\n'))) =
            true := ih _ (by omega) hpd
        have hinner : pairOk ('\n' ::
            collapseNewlines (t.dropWhile (· = '\n'))) = true := by
          cases hC0 : collapseNewlines (t.dropWhile (· = '\n')) with
          | nil => rfl
          | cons d C2 =>
            have hu : (t.dropWhile (· = '\n')).head? = some d := by
              rw [← collapse_head? (t.dropWhile (· = '\n')), hC0]
              rfl
            have hd : ¬ (d = '\n') := by
              have hpp := List.head?_dropWhile_not
                (fun c => decide (c = '\n')) t
              cases hdw : (t.dropWhile (· = '\n')).head? with
              | none => rw [hdw] at hu; exact absurd hu (by simp)
              | some z =>
                rw [hdw] at hu
                rw [Option.some_inj] at hu
                rw [hdw] at hpp
                subst hu
                simpa using hpp
            rw [hC0] at hC
            exact pairOk_build (fun he => absurd he hd) hC
        exact pairOk_build (fun _ => by decide) hinner
      case isFalse h =>
        cases hct : collapseNewlines t with
        | nil => rfl
        | cons d C2 =>
          have hu : t.head? = some d := by
            rw [← collapse_head? t, hct]
            rfl
          cases t with
          | nil => exact absurd hu (by simp)
          | cons e t2 =>
            rw [List.head?_cons, Option.some_inj] at hu
            subst hu
            have h1 := (pairOk_cons hp).2
            have h2 : pairOk (collapseNewlines (e :: t2)) = true :=
              ih _ (by omega) (pairOk_tail hp)
            rw [hct] at h2
            exact pairOk_build h1 h2

theorem pairOk_collapse {s : List Char} (h : pairOk s = true) :
    pairOk (collapseNewlines s) = true :=
  pairOk_collapse_aux s.length s (Nat.le_refl _) h

/-- Removing trailing whitespace cannot create a heading line. -/
theorem dropEnd_heading {m : List Char}
    (h : isHeadingLine ((m.reverse.dropWhile isPySpace).reverse) = true) :
    isHeadingLine m = true := by
  have h2 : (matchCore
      ((m.reverse.dropWhile isPySpace).reverse)).isSome = true := h
  have h3 := matchCore_extend ((m.reverse.takeWhile isPySpace).reverse) h2
  have h4 : m = (m.reverse.dropWhile isPySpace).reverse ++
      (m.reverse.takeWhile isPySpace).reverse := by
    have h5 := congrArg List.reverse
      (List.takeWhile_append_dropWhile isPySpace m.reverse)
    rw [List.reverse_append, List.reverse_reverse] at h5
    exact h5.symm
  rw [h4]
  exact h3

theorem revLine_heading (l : List Char)
    (h : isHeadingLine ((l.dropWhile isPySpace).reverse) = true) :
    isHeadingLine l.reverse = true := by
  apply dropEnd_heading
  rw [List.reverse_reverse]
  exact h

/-- Left-stripping preserves the spacing chain, for any heading notion `H`
that left-stripping cannot create. -/
theorem chain_stripFront (H : List Char → Bool) :
    ∀ LS : List (List Char),
      List.Chain' (fun a b => (H a = true → b = []) ∧
        (H b = true → a = [])) LS →
      (∀ l ∈ LS, H (l.dropWhile isPySpace) = true → H l = true) →
      List.Chain' (fun a b => (H a = true → b = []) ∧
        (H b = true → a = [])) (stripFrontLines LS) := by
  intro LS
  induction LS with
  | nil =>
    intro _ _
    exact List.chain'_singleton _
  | cons l ls ih =>
    intro hchain hb
    cases ls with
    | nil => exact List.chain'_singleton _
    | cons l2 ls2 =>
      rw [show stripFrontLines (l :: l2 :: ls2) =
        if l.dropWhile isPySpace = [] then stripFrontLines (l2 :: ls2)
        else (l.dropWhile isPySpace) :: l2 :: ls2 from rfl]
      split
      case isTrue hdw =>
        exact ih (List.Chain'.tail hchain)
          (fun m hm => hb m (List.mem_cons_of_mem _ hm))
      case isFalse hdw =>
        rw [List.chain'_cons]
        rw [List.chain'_cons] at hchain
        constructor
        · constructor
          · intro hHl
            exact hchain.1.1 (hb l (List.mem_cons_self _ _) hHl)
          · intro hH2
            rw [hchain.1.2 hH2]
            exact List.dropWhile_nil
        · exact hchain.2

/-- The spacing chain transfers through reversing the line list and each
line. -/
theorem chain_rev_transfer (H : List Char → Bool) (Y : List (List Char)) :
    List.Chain' (fun a b => (H a = true → b = []) ∧ (H b = true → a = []))
      ((Y.map List.reverse).reverse) ↔
    List.Chain' (fun a b => (H a.reverse = true → b = []) ∧
      (H b.reverse = true → a = [])) Y := by
  rw [List.chain'_reverse, List.chain'_map]
  constructor
  · refine fun h => List.Chain'.imp ?_ h
    intro a b hab
    exact ⟨fun hH => List.reverse_eq_nil_iff.mp (hab.2 hH),
           fun hH => List.reverse_eq_nil_iff.mp (hab.1 hH)⟩
  · refine fun h => List.Chain'.imp ?_ h
    intro a b hab
    exact ⟨fun hH => by rw [hab.2 hH]; rfl,
           fun hH => by rw [hab.1 hH]; rfl⟩

theorem linesOf_pyStrip (u : List Char) :
    linesOf (pyStrip u) =
      ((stripFrontLines (((stripFrontLines
        (linesOf u)).map List.reverse).reverse)).map List.reverse).reverse
      := by
  unfold pyStrip
  rw [linesOf_reverse, linesOf_dropWhile, linesOf_reverse, linesOf_dropWhile]

theorem chain_rev_transfer2 (H : List Char → Bool) (Y : List (List Char))
    (h : List.Chain' (fun a b => (H a = true → b = []) ∧
      (H b = true → a = [])) Y) :
    List.Chain' (fun a b => (H a.reverse = true → b = []) ∧
      (H b.reverse = true → a = [])) ((Y.map List.reverse).reverse) := by
  rw [List.chain'_reverse, List.chain'_map]
  refine List.Chain'.imp ?_ h
  intro a b hab
  constructor
  · intro hH
    rw [List.reverse_reverse] at hH
    rw [hab.2 hH]
    rfl
  · intro hH
    rw [List.reverse_reverse] at hH
    rw [hab.1 hH]
    rfl

set_option maxRecDepth 40000 in
/-- C5, counterexample to the literal claim: on input `"a\n\n# b"` the
post-processed body is `"a\n\n\n# b"`, whose heading line `"# b"` has TWO
blank lines above it (the heading substitution inserts two newlines in
front of an already newline-preceded heading, and no newline collapsing
runs afterwards), refuting "exactly one blank line above". -/
theorem claim_C5_counterexample :
    postProcess "a\n\n# b" = "a\n\n\n# b" ∧
    linesOf (postProcess "a\n\n# b").data =
      [['a'], [], [], ['#', ' ', 'b']] ∧
    isHeadingLine ['#', ' ', 'b'] = true ∧
    exactSpacing (linesOf (postProcess "a\n\n# b").data) = false := by
  refine ⟨?_, ?_, ?_, ?_⟩ <;> decide

/-- C5 (amended): provided no `'#'` and no non-newline whitespace
character stands immediately before a newline in the input (`pairOk`,
which forces every matched heading core onto a single line), every heading
line of the post-processed body has AT LEAST one blank line above and
below it, boundaries excepted: adjacent lines satisfy `lineCond`. -/
theorem claim_C5_amended (s : String) (h : pairOk s.data = true) :
    List.Chain' lineCond (linesOf (postProcess s).data) := by
  have hV : pairOk (collapseNewlines s.data) = true := pairOk_collapse h
  have hpp : (postProcess s).data =
      pyStrip (headingSubAux (collapseNewlines s.data)) := by
    show post_process_markdown s.data = _
    unfold post_process_markdown
    rw [imageSubAux_id]
  rw [hpp]
  obtain ⟨aW, bW, cW, dW⟩ := headingSub_good
    (collapseNewlines s.data).length (collapseNewlines s.data)
    (Nat.le_refl _) hV
  rw [linesOf_pyStrip]
  have h1 := chain_stripFront isHeadingLine _ aW bW
  have h2 := chain_rev_transfer2 isHeadingLine _ h1
  have h3 := chain_stripFront (fun l => isHeadingLine l.reverse) _ h2
    (fun l _ hH => revLine_heading l hH)
  exact (chain_rev_transfer isHeadingLine _).mpr h3

/-- Witness for the amended C5 on a concrete document with a heading. -/
theorem claim_C5_amended_witness :
    pairOk "intro\n# Title\ntext".data = true ∧
      List.Chain' lineCond
        (linesOf (postProcess "intro\n# Title\ntext").data) :=
  ⟨by decide, claim_C5_amended "intro\n# Title\ntext" (by decide)⟩

end Url2Md
